import Mathlib

/-!
Verification of the solo-pool payment-processing core against its
natural-language specification.

The development shallowly embeds the Rust sources:

* `src/payments/src/db.rs` — the SQLite ledger store.  Monetary columns are
  TEXT; the additive balance updates in `add_pending_balance` and the
  confirmed branch of `update_payment_status` compute through
  `CAST(... AS REAL)`, i.e. IEEE-754 binary64 arithmetic.  We model a REAL
  as an exact rational together with the correct round-to-nearest-even
  conversion `roundF64` (binary64 with unbounded exponent range: monetary
  values never reach the overflow or subnormal ranges).  SQLite renders a
  REAL back to TEXT as a decimal string that casts back to the same REAL;
  we model the stored text by the exact rational value of that REAL.
* `src/payments/src/processor.rs` — the settlement engine.  Its reward
  arithmetic uses the rust_decimal crate (96-bit mantissa, scale at most
  28); we model that type as a mantissa/scale pair with the documented
  rounding behaviour of the crate.
* `src/payments/src/wallets/monero.rs` — the monero wallet adapter used by
  confirmation polling.
-/

set_option maxRecDepth 10000

namespace SoloPool

/-! ### Binary64 rounding model (SQLite REAL)

All executable arithmetic is done on integers so that concrete instances
evaluate by kernel reduction; the rational-level characterisations are
proved as lemmas below. -/

/-- Round the integer fraction `a / b` (for `b > 0`) to the nearest
integer, ties to even. -/
def rdInt (a b : ℤ) : ℤ :=
  let q := a / b
  let r := a % b
  if b < 2 * r then q + 1
  else if 2 * r < b then q
  else if q % 2 = 0 then q else q + 1

/-- Fuel-driven base-2 logarithm on naturals (structural recursion, so
that concrete instances evaluate by kernel reduction). -/
def log2fuel : ℕ → ℕ → ℕ
  | 0, _ => 0
  | fuel + 1, n => if 2 ≤ n then log2fuel fuel (n / 2) + 1 else 0

/-- Base-2 logarithm on naturals: for `n ≠ 0`,
`2 ^ nlog2 n ≤ n < 2 ^ (nlog2 n + 1)`. -/
def nlog2 (n : ℕ) : ℕ := log2fuel n n

/-- Round a rational to the nearest integer, ties to even
(specification-level version of `rdInt`). -/
def rndHE (q : ℚ) : ℤ :=
  let n := ⌊q⌋
  if (1 : ℚ)/2 < q - n then n + 1
  else if q - n < (1 : ℚ)/2 then n
  else if 2 ∣ n then n else n + 1

/-- Floor of the base-2 logarithm of `|x|` (meaningful for `x ≠ 0`):
for `0 < x` it is the unique `e` with `2 ^ e ≤ x < 2 ^ (e + 1)`. -/
def ilog2 (x : ℚ) : ℤ :=
  let n := x.num.natAbs
  let d := x.den
  let a := nlog2 n
  let b := nlog2 d
  if b ≤ a then
    (if d * 2 ^ (a - b) ≤ n then ((a - b : ℕ) : ℤ) else ((a - b : ℕ) : ℤ) - 1)
  else
    (if d ≤ n * 2 ^ (b - a) then -((b - a : ℕ) : ℤ) else -((b - a : ℕ) : ℤ) - 1)

/-- Correctly rounded conversion of a rational to binary64 (with unbounded
exponent: monetary magnitudes in this system never reach binary64 overflow
or subnormals).  The significand of `|x|` is scaled into `[2^52, 2^53)`,
rounded to an integer (nearest, ties to even) and scaled back. -/
def roundF64 (x : ℚ) : ℚ :=
  if x = 0 then 0
  else
    let e : ℤ := ilog2 x
    let n : ℤ := Int.ofNat x.num.natAbs
    let d : ℤ := Int.ofNat x.den
    let m : ℤ :=
      if 0 ≤ 52 - e then rdInt (n * Int.ofNat (2 ^ (52 - e).toNat)) d
      else rdInt n (d * Int.ofNat (2 ^ (e - 52).toNat))
    let v : ℚ :=
      if 0 ≤ e - 52 then Rat.divInt (m * Int.ofNat (2 ^ (e - 52).toNat)) 1
      else Rat.divInt m (Int.ofNat (2 ^ (52 - e).toNat))
    if x.num < 0 then -v else v

/-- The SQLite expression
`CAST((CAST(x AS REAL) + CAST(y AS REAL)) AS TEXT)` used by
`add_pending_balance` and `update_payment_status` in `db.rs`: both stored
texts are cast to binary64, added (the hardware sum is correctly rounded),
and the result is stored back. -/
def realAdd (x y : ℚ) : ℚ := roundF64 (roundF64 x + roundF64 y)

/-- The SQLite expression
`CAST((CAST(x AS REAL) - CAST(y AS REAL)) AS TEXT)` from the confirmed
branch of `update_payment_status` in `db.rs`. -/
def realSub (x y : ℚ) : ℚ := roundF64 (roundF64 x - roundF64 y)

theorem log2fuel_spec : ∀ (fuel n : ℕ), n ≤ fuel → 1 ≤ n →
    2 ^ log2fuel fuel n ≤ n ∧ n < 2 ^ (log2fuel fuel n + 1) := by
  intro fuel
  induction fuel with
  | zero => intro n h1 h2; omega
  | succ fuel ih =>
    intro n hle h1
    by_cases h2 : 2 ≤ n
    · have hrec := ih (n / 2) (by omega) (by omega)
      simp only [log2fuel, if_pos h2]
      constructor
      · calc 2 ^ (log2fuel fuel (n / 2) + 1) = 2 ^ log2fuel fuel (n / 2) * 2 := by ring
        _ ≤ n / 2 * 2 := by exact Nat.mul_le_mul_right 2 hrec.1
        _ ≤ n := by omega
      · have := hrec.2
        calc n < (n / 2) * 2 + 2 := by omega
        _ ≤ 2 ^ (log2fuel fuel (n / 2) + 1) * 2 := by
              have : n / 2 + 1 ≤ 2 ^ (log2fuel fuel (n / 2) + 1) := hrec.2
              nlinarith
        _ = 2 ^ (log2fuel fuel (n / 2) + 1 + 1) := by ring
    · simp only [log2fuel, if_neg h2]
      omega

theorem nlog2_spec {n : ℕ} (h : 1 ≤ n) :
    2 ^ nlog2 n ≤ n ∧ n < 2 ^ (nlog2 n + 1) :=
  log2fuel_spec n n le_rfl h

theorem floor_le_rndHE (q : ℚ) : ⌊q⌋ ≤ rndHE q := by
  simp only [rndHE]
  split_ifs <;> omega

theorem rndHE_le_floor_add_one (q : ℚ) : rndHE q ≤ ⌊q⌋ + 1 := by
  simp only [rndHE]
  split_ifs <;> omega

theorem rndHE_intCast (n : ℤ) : rndHE (n : ℚ) = n := by
  simp only [rndHE, Int.floor_intCast, sub_self]
  norm_num

theorem rndHE_mono {a b : ℚ} (h : a ≤ b) : rndHE a ≤ rndHE b := by
  rcases lt_or_eq_of_le (Int.floor_mono h) with hf | hf
  · calc rndHE a ≤ ⌊a⌋ + 1 := rndHE_le_floor_add_one a
    _ ≤ ⌊b⌋ := by omega
    _ ≤ rndHE b := floor_le_rndHE b
  · have hfr : a - ⌊a⌋ ≤ b - ⌊b⌋ := by
      rw [← hf]; exact sub_le_sub_right h _
    simp only [rndHE, ← hf]
    split_ifs with h1 h2 h3 h4 h5 h6 h7 h8 <;>
      first
      | omega
      | (exfalso; linarith)

theorem rdInt_eq_rndHE (a : ℤ) {b : ℤ} (hb : 0 < b) :
    rdInt a b = rndHE ((a : ℚ) / (b : ℚ)) := by
  have hbq : (0 : ℚ) < (b : ℚ) := by exact_mod_cast hb
  have hsplit : b * (a / b) + a % b = a := Int.ediv_add_emod a b
  have hr0 : 0 ≤ a % b := Int.emod_nonneg a (ne_of_gt hb)
  have hrb : a % b < b := Int.emod_lt_of_pos a hb
  have hx : (a : ℚ) / b = (a / b : ℤ) + ((a % b : ℤ) : ℚ) / b := by
    have hcast : ((b * (a / b) + a % b : ℤ) : ℚ) = (a : ℚ) := by
      exact_mod_cast congrArg (fun z : ℤ => (z : ℚ)) hsplit
    rw [← hcast]
    push_cast
    field_simp
    ring
  have hfrac0 : (0 : ℚ) ≤ ((a % b : ℤ) : ℚ) / b := by
    apply div_nonneg _ (le_of_lt hbq)
    exact_mod_cast hr0
  have hfrac1 : ((a % b : ℤ) : ℚ) / b < 1 := by
    rw [div_lt_one hbq]
    exact_mod_cast hrb
  have hfloor : ⌊(a : ℚ) / b⌋ = a / b := by
    rw [hx, add_comm, Int.floor_add_int]
    rw [Int.floor_eq_zero_iff.2 ⟨hfrac0, hfrac1⟩]
    ring
  have hsub : (a : ℚ) / b - (⌊(a : ℚ) / b⌋ : ℚ) = ((a % b : ℤ) : ℚ) / b := by
    rw [hfloor, hx]; ring
  have hlt : ((1 : ℚ)/2 < ((a % b : ℤ) : ℚ) / b) ↔ b < 2 * (a % b) := by
    rw [div_lt_div_iff₀ (by norm_num) hbq]
    constructor
    · intro h
      have h2 : (b : ℚ) < 2 * ((a % b : ℤ) : ℚ) := by linarith
      exact_mod_cast h2
    · intro h
      have h2 : (b : ℚ) < 2 * ((a % b : ℤ) : ℚ) := by exact_mod_cast h
      linarith
  have hlt2 : (((a % b : ℤ) : ℚ) / b < (1 : ℚ)/2) ↔ 2 * (a % b) < b := by
    rw [div_lt_div_iff₀ hbq (by norm_num)]
    constructor
    · intro h
      have h2 : 2 * ((a % b : ℤ) : ℚ) < (b : ℚ) := by linarith
      exact_mod_cast h2
    · intro h
      have h2 : 2 * ((a % b : ℤ) : ℚ) < (b : ℚ) := by exact_mod_cast h
      linarith
  have hdvd : ((a / b) % 2 = 0) ↔ (2 ∣ a / b) := by
    rw [Int.dvd_iff_emod_eq_zero]
  have hsub2 : (a : ℚ) / b - ((a / b : ℤ) : ℚ) = ((a % b : ℤ) : ℚ) / b := by
    rw [hx]; ring
  simp only [rdInt, rndHE, hfloor, hsub2, hlt, hlt2, hdvd]

theorem ilog2_spec {x : ℚ} (hx : 0 < x) :
    (2 : ℚ) ^ ilog2 x ≤ x ∧ x < 2 ^ (ilog2 x + 1) := by
  have hnum : 0 < x.num := Rat.num_pos.2 hx
  set n := x.num.natAbs with hn
  set d := x.den with hd
  have hn1 : 1 ≤ n := by
    have : x.num ≠ 0 := ne_of_gt hnum
    omega
  have hd1 : 1 ≤ d := x.pos
  have hdq : (0 : ℚ) < (d : ℚ) := by exact_mod_cast hd1
  have hxnd : x = (n : ℚ) / (d : ℚ) := by
    have h1 : ((n : ℤ) : ℚ) = (x.num : ℚ) := by
      rw [hn, Int.natAbs_of_nonneg (le_of_lt hnum)]
    rw [show ((n : ℚ)) = ((n : ℤ) : ℚ) by push_cast; ring, h1, hd]
    exact (Rat.num_div_den x).symm
  have key : ∀ j k : ℕ, ((2 : ℚ) ^ ((j : ℤ) - (k : ℤ)) ≤ x ↔ 2 ^ j * d ≤ n * 2 ^ k) := by
    intro j k
    rw [zpow_sub₀ (two_ne_zero), zpow_natCast, zpow_natCast, hxnd,
      div_le_div_iff₀ (pow_pos two_pos k) hdq]
    constructor
    · intro h; exact_mod_cast h
    · intro h; exact_mod_cast h
  have keylt : ∀ j k : ℕ, (x < (2 : ℚ) ^ ((j : ℤ) - (k : ℤ)) ↔ n * 2 ^ k < 2 ^ j * d) := by
    intro j k
    rw [zpow_sub₀ (two_ne_zero), zpow_natCast, zpow_natCast, hxnd,
      div_lt_div_iff₀ hdq (pow_pos two_pos k)]
    constructor
    · intro h; exact_mod_cast h
    · intro h; exact_mod_cast h
  set a := nlog2 n with ha
  set b := nlog2 d with hb
  have hsa := nlog2_spec hn1
  have hsb := nlog2_spec hd1
  have hup : x < (2 : ℚ) ^ (((a : ℤ) - b) + 1) := by
    have heq : ((a : ℤ) - b) + 1 = ((a + 1 : ℕ) : ℤ) - (b : ℤ) := by push_cast; ring
    rw [heq, keylt (a + 1) b]
    calc n * 2 ^ b < 2 ^ (a + 1) * 2 ^ b :=
          mul_lt_mul_of_pos_right hsa.2 (pow_pos two_pos b)
    _ ≤ 2 ^ (a + 1) * d := mul_le_mul_of_nonneg_left hsb.1 (zero_le _)
  have hlow : (2 : ℚ) ^ (((a : ℤ) - b) - 1) ≤ x := by
    have heq : ((a : ℤ) - b) - 1 = ((a : ℕ) : ℤ) - ((b + 1 : ℕ) : ℤ) := by push_cast; ring
    rw [heq, key a (b + 1)]
    calc 2 ^ a * d ≤ 2 ^ a * 2 ^ (b + 1) :=
          mul_le_mul_of_nonneg_left (le_of_lt hsb.2) (zero_le _)
    _ ≤ n * 2 ^ (b + 1) := mul_le_mul_of_nonneg_right hsa.1 (zero_le _)
  simp only [ilog2, ← hn, ← hd, ← ha, ← hb]
  split_ifs with hba hc hc2
  · -- b ≤ a, condition true: value (a - b : ℕ)
    have hcast : (((a - b : ℕ) : ℤ)) = (a : ℤ) - b := by omega
    rw [hcast]
    constructor
    · rw [show (a : ℤ) - b = (((a - b : ℕ) : ℤ)) - ((0 : ℕ) : ℤ) by omega, key]
      simpa [pow_zero, mul_one, mul_comm] using hc
    · exact hup
  · -- b ≤ a, condition false: value (a - b) - 1
    have hcast : (((a - b : ℕ) : ℤ)) - 1 = ((a : ℤ) - b) - 1 := by omega
    rw [hcast]
    constructor
    · exact hlow
    · rw [show ((a : ℤ) - b) - 1 + 1 = (((a - b : ℕ) : ℤ)) - ((0 : ℕ) : ℤ) by omega, keylt]
      simpa [pow_zero, mul_one, mul_comm] using not_le.1 hc
  · -- a < b, condition true: value -(b - a)
    have hcast : (-((b - a : ℕ) : ℤ)) = (a : ℤ) - b := by omega
    rw [hcast]
    constructor
    · rw [show (a : ℤ) - b = ((0 : ℕ) : ℤ) - ((b - a : ℕ) : ℤ) by omega, key]
      simpa [pow_zero, one_mul] using hc2
    · exact hup
  · -- a < b, condition false
    have hcast : (-((b - a : ℕ) : ℤ)) - 1 = ((a : ℤ) - b) - 1 := by omega
    rw [hcast]
    constructor
    · exact hlow
    · rw [show ((a : ℤ) - b) - 1 + 1 = ((0 : ℕ) : ℤ) - ((b - a : ℕ) : ℤ) by omega, keylt]
      simpa [pow_zero, one_mul] using not_le.1 hc2

theorem ilog2_eq_of {x : ℚ} {e : ℤ} (hx : 0 < x) (h1 : (2 : ℚ) ^ e ≤ x)
    (h2 : x < 2 ^ (e + 1)) : ilog2 x = e := by
  have hs := ilog2_spec hx
  by_contra hne
  rcases lt_or_gt_of_ne hne with hlt | hgt
  · have hp : (2 : ℚ) ^ (ilog2 x + 1) ≤ 2 ^ e :=
      zpow_le_zpow_right₀ one_le_two (by omega)
    linarith [hs.2]
  · have hp : (2 : ℚ) ^ (e + 1) ≤ 2 ^ ilog2 x :=
      zpow_le_zpow_right₀ one_le_two (by omega)
    linarith [hs.1]

theorem ilog2_mono {x y : ℚ} (hx : 0 < x) (hxy : x ≤ y) : ilog2 x ≤ ilog2 y := by
  have hsx := ilog2_spec hx
  have hsy := ilog2_spec (lt_of_lt_of_le hx hxy)
  by_contra hgt
  push_neg at hgt
  have hp : (2 : ℚ) ^ (ilog2 y + 1) ≤ 2 ^ ilog2 x :=
    zpow_le_zpow_right₀ one_le_two (by omega)
  linarith [hsx.1, hsy.2]

theorem divInt_scaled_eq (m e0 : ℤ) :
    (if 0 ≤ e0 - 52 then Rat.divInt (m * Int.ofNat (2 ^ (e0 - 52).toNat)) 1
     else Rat.divInt m (Int.ofNat (2 ^ (52 - e0).toNat)))
    = (m : ℚ) * 2 ^ (e0 - 52) := by
  split_ifs with h
  · rw [Rat.divInt_one]
    push_cast [Int.ofNat_eq_natCast]
    rw [← zpow_natCast (2 : ℚ), Int.toNat_of_nonneg h]
  · rw [Rat.divInt_eq_div]
    push_cast [Int.ofNat_eq_natCast]
    rw [← zpow_natCast (2 : ℚ), Int.toNat_of_nonneg (by omega : (0:ℤ) ≤ 52 - e0),
      show e0 - 52 = -(52 - e0) by ring, zpow_neg, div_eq_mul_inv]

theorem roundF64_pos_eq {x : ℚ} (hx : 0 < x) :
    roundF64 x = ((rndHE (x * 2 ^ (52 - ilog2 x)) : ℤ) : ℚ) * 2 ^ (ilog2 x - 52) := by
  have hx0 : x ≠ 0 := ne_of_gt hx
  have hnum : 0 < x.num := Rat.num_pos.2 hx
  have hofn : (Int.ofNat x.num.natAbs) = x.num := by
    rw [Int.ofNat_eq_natCast, Int.natAbs_of_nonneg (le_of_lt hnum)]
  have hdpos : (0 : ℤ) < Int.ofNat x.den := by
    rw [Int.ofNat_eq_natCast]
    exact_mod_cast x.pos
  have hm : (if 0 ≤ 52 - ilog2 x
      then rdInt (Int.ofNat x.num.natAbs * Int.ofNat (2 ^ ((52 : ℤ) - ilog2 x).toNat))
        (Int.ofNat x.den)
      else rdInt (Int.ofNat x.num.natAbs)
        (Int.ofNat x.den * Int.ofNat (2 ^ (ilog2 x - 52).toNat)))
      = rndHE (x * 2 ^ (52 - ilog2 x)) := by
    split_ifs with h
    · rw [rdInt_eq_rndHE _ hdpos]
      congr 1
      rw [hofn]
      push_cast [Int.ofNat_eq_natCast]
      rw [← zpow_natCast (2 : ℚ), Int.toNat_of_nonneg h,
        show ((x.num : ℚ) * 2 ^ ((52 : ℤ) - ilog2 x) / (x.den : ℚ))
          = ((x.num : ℚ) / (x.den : ℚ)) * 2 ^ ((52 : ℤ) - ilog2 x) by ring,
        Rat.num_div_den]
    · have hpos2 : (0 : ℤ) < Int.ofNat x.den * Int.ofNat (2 ^ (ilog2 x - 52).toNat) := by
        apply mul_pos hdpos
        rw [Int.ofNat_eq_natCast]
        exact_mod_cast Nat.pos_pow_of_pos _ (by norm_num)
      rw [rdInt_eq_rndHE _ hpos2]
      congr 1
      rw [hofn]
      push_cast [Int.ofNat_eq_natCast]
      rw [← zpow_natCast (2 : ℚ), Int.toNat_of_nonneg (by omega : (0:ℤ) ≤ ilog2 x - 52),
        show (52 : ℤ) - ilog2 x = -(ilog2 x - 52) by ring, zpow_neg,
        div_mul_eq_div_div, Rat.num_div_den, div_eq_mul_inv]
  simp only [roundF64, if_neg hx0, if_neg (not_lt.2 (le_of_lt hnum))]
  rw [hm, divInt_scaled_eq]

theorem roundF64_zero : roundF64 0 = 0 := by
  simp [roundF64]

theorem roundF64_neg (x : ℚ) : roundF64 (-x) = -roundF64 x := by
  rcases eq_or_ne x 0 with rfl | hx0
  · simp [roundF64]
  · have hnum0 : x.num ≠ 0 := Rat.num_ne_zero.2 hx0
    have hilog : ilog2 (-x) = ilog2 x := by
      simp only [ilog2, Rat.neg_num, Rat.neg_den, Int.natAbs_neg]
    have h1 : (-x : ℚ) ≠ 0 := neg_ne_zero.2 hx0
    simp only [roundF64, if_neg h1, if_neg hx0, hilog, Rat.neg_num, Rat.neg_den,
      Int.natAbs_neg]
    rcases lt_or_gt_of_ne hnum0 with hneg | hpos
    · rw [if_pos hneg, if_neg (by omega : ¬(-x.num < 0)), neg_neg]
    · rw [if_neg (by omega : ¬(x.num < 0)), if_pos (by omega : -x.num < 0)]

theorem cast_two_pow_52 : ((2 ^ 52 : ℤ) : ℚ) = (2 : ℚ) ^ (52 : ℤ) := by
  norm_num

theorem cast_two_pow_53 : ((2 ^ 53 : ℤ) : ℚ) = (2 : ℚ) ^ (53 : ℤ) := by
  norm_num

theorem two_pow_le_roundF64 {x : ℚ} (hx : 0 < x) :
    (2 : ℚ) ^ ilog2 x ≤ roundF64 x := by
  rw [roundF64_pos_eq hx]
  have hs := (ilog2_spec hx).1
  have hsc : (2 : ℚ) ^ (52 : ℤ) ≤ x * 2 ^ (52 - ilog2 x) := by
    calc (2 : ℚ) ^ (52 : ℤ) = 2 ^ ilog2 x * 2 ^ (52 - ilog2 x) := by
          rw [← zpow_add₀ (two_ne_zero : (2 : ℚ) ≠ 0)]; norm_num
    _ ≤ x * 2 ^ (52 - ilog2 x) :=
          mul_le_mul_of_nonneg_right hs (le_of_lt (zpow_pos two_pos _))
  have hfl : (2 ^ 52 : ℤ) ≤ rndHE (x * 2 ^ (52 - ilog2 x)) := by
    calc (2 ^ 52 : ℤ) ≤ ⌊x * 2 ^ (52 - ilog2 x)⌋ := by
          apply Int.le_floor.2
          rw [cast_two_pow_52]
          exact hsc
    _ ≤ rndHE (x * 2 ^ (52 - ilog2 x)) := floor_le_rndHE _
  calc (2 : ℚ) ^ ilog2 x = ((2 ^ 52 : ℤ) : ℚ) * 2 ^ (ilog2 x - 52) := by
        rw [cast_two_pow_52, ← zpow_add₀ (two_ne_zero : (2 : ℚ) ≠ 0)]
        norm_num
  _ ≤ ((rndHE (x * 2 ^ (52 - ilog2 x)) : ℤ) : ℚ) * 2 ^ (ilog2 x - 52) := by
        apply mul_le_mul_of_nonneg_right _ (le_of_lt (zpow_pos two_pos _))
        exact_mod_cast hfl

theorem roundF64_le_two_pow {x : ℚ} (hx : 0 < x) :
    roundF64 x ≤ 2 ^ (ilog2 x + 1) := by
  rw [roundF64_pos_eq hx]
  have hs := (ilog2_spec hx).2
  have hsc : x * 2 ^ (52 - ilog2 x) < (2 : ℚ) ^ (53 : ℤ) := by
    calc x * 2 ^ (52 - ilog2 x) < 2 ^ (ilog2 x + 1) * 2 ^ (52 - ilog2 x) :=
          mul_lt_mul_of_pos_right hs (zpow_pos two_pos _)
    _ = (2 : ℚ) ^ (53 : ℤ) := by
          rw [← zpow_add₀ (two_ne_zero : (2 : ℚ) ≠ 0)]
          congr 1
          ring
  have hfl : rndHE (x * 2 ^ (52 - ilog2 x)) ≤ (2 ^ 53 : ℤ) := by
    have hlt : ⌊x * 2 ^ (52 - ilog2 x)⌋ < (2 ^ 53 : ℤ) := by
      apply Int.floor_lt.2
      rw [cast_two_pow_53]
      exact hsc
    have := rndHE_le_floor_add_one (x * 2 ^ (52 - ilog2 x))
    omega
  calc ((rndHE (x * 2 ^ (52 - ilog2 x)) : ℤ) : ℚ) * 2 ^ (ilog2 x - 52)
      ≤ ((2 ^ 53 : ℤ) : ℚ) * 2 ^ (ilog2 x - 52) := by
        apply mul_le_mul_of_nonneg_right _ (le_of_lt (zpow_pos two_pos _))
        exact_mod_cast hfl
  _ = 2 ^ (ilog2 x + 1) := by
        rw [cast_two_pow_53, ← zpow_add₀ (two_ne_zero : (2 : ℚ) ≠ 0)]
        congr 1
        ring

theorem roundF64_pos {x : ℚ} (hx : 0 < x) : 0 < roundF64 x :=
  lt_of_lt_of_le (zpow_pos two_pos _) (two_pow_le_roundF64 hx)

theorem roundF64_nonneg {x : ℚ} (hx : 0 ≤ x) : 0 ≤ roundF64 x := by
  rcases hx.eq_or_lt with h | h
  · rw [← h, roundF64_zero]
  · exact le_of_lt (roundF64_pos h)

theorem roundF64_nonpos {x : ℚ} (hx : x ≤ 0) : roundF64 x ≤ 0 := by
  have h : 0 ≤ roundF64 (-x) := roundF64_nonneg (by linarith)
  rw [roundF64_neg] at h
  linarith

theorem roundF64_mono_pos {x y : ℚ} (hx : 0 < x) (h : x ≤ y) :
    roundF64 x ≤ roundF64 y := by
  have hy : 0 < y := lt_of_lt_of_le hx h
  have he : ilog2 x ≤ ilog2 y := ilog2_mono hx h
  rcases lt_or_eq_of_le he with helt | heeq
  · calc roundF64 x ≤ 2 ^ (ilog2 x + 1) := roundF64_le_two_pow hx
    _ ≤ 2 ^ ilog2 y := zpow_le_zpow_right₀ one_le_two (by omega)
    _ ≤ roundF64 y := two_pow_le_roundF64 hy
  · rw [roundF64_pos_eq hx, roundF64_pos_eq hy, ← heeq]
    apply mul_le_mul_of_nonneg_right _ (le_of_lt (zpow_pos two_pos _))
    have hscaled : x * 2 ^ (52 - ilog2 x) ≤ y * 2 ^ (52 - ilog2 x) :=
      mul_le_mul_of_nonneg_right h (le_of_lt (zpow_pos two_pos _))
    exact_mod_cast rndHE_mono hscaled

theorem roundF64_mono {x y : ℚ} (h : x ≤ y) : roundF64 x ≤ roundF64 y := by
  rcases le_or_lt x 0 with hx | hx
  · rcases le_or_lt y 0 with hy | hy
    · rcases lt_or_eq_of_le hy with hylt | hyeq
      · have h1 : roundF64 (-y) ≤ roundF64 (-x) :=
          roundF64_mono_pos (by linarith) (by linarith)
        rw [roundF64_neg, roundF64_neg] at h1
        linarith
      · rw [hyeq, roundF64_zero]
        exact roundF64_nonpos hx
    · have h1 : roundF64 x ≤ 0 := roundF64_nonpos hx
      have h2 : 0 ≤ roundF64 y := roundF64_nonneg (le_of_lt hy)
      linarith
  · exact roundF64_mono_pos hx h

theorem roundF64_idem_pos {x : ℚ} (hx : 0 < x) :
    roundF64 (roundF64 x) = roundF64 x := by
  have hrx := roundF64_pos_eq hx
  set e := ilog2 x with he
  set m := rndHE (x * 2 ^ (52 - e)) with hm
  have hs1 := (ilog2_spec hx).1
  have hs2 := (ilog2_spec hx).2
  rw [← he] at hs1 hs2
  have hs_low : (2 : ℚ) ^ (52 : ℤ) ≤ x * 2 ^ (52 - e) := by
    calc (2 : ℚ) ^ (52 : ℤ) = 2 ^ e * 2 ^ (52 - e) := by
          rw [← zpow_add₀ (two_ne_zero : (2 : ℚ) ≠ 0)]
          congr 1
          ring
    _ ≤ x * 2 ^ (52 - e) :=
          mul_le_mul_of_nonneg_right hs1 (le_of_lt (zpow_pos two_pos _))
  have hs_up : x * 2 ^ (52 - e) < (2 : ℚ) ^ (53 : ℤ) := by
    calc x * 2 ^ (52 - e) < 2 ^ (e + 1) * 2 ^ (52 - e) :=
          mul_lt_mul_of_pos_right hs2 (zpow_pos two_pos _)
    _ = (2 : ℚ) ^ (53 : ℤ) := by
          rw [← zpow_add₀ (two_ne_zero : (2 : ℚ) ≠ 0)]
          congr 1
          ring
  have hm_low : (2 ^ 52 : ℤ) ≤ m := by
    calc (2 ^ 52 : ℤ) ≤ ⌊x * 2 ^ (52 - e)⌋ := by
          apply Int.le_floor.2
          rw [cast_two_pow_52]
          exact hs_low
    _ ≤ m := floor_le_rndHE _
  have hm_up : m ≤ (2 ^ 53 : ℤ) := by
    have h1 : ⌊x * 2 ^ (52 - e)⌋ < (2 ^ 53 : ℤ) := by
      apply Int.floor_lt.2
      rw [cast_two_pow_53]
      exact hs_up
    have h2 := rndHE_le_floor_add_one (x * 2 ^ (52 - e))
    rw [← hm] at h2
    omega
  have hvpos : 0 < roundF64 x := roundF64_pos hx
  rcases lt_or_eq_of_le hm_up with hm53 | hm53
  · have hv_up : roundF64 x < 2 ^ (e + 1) := by
      rw [hrx]
      calc ((m : ℤ) : ℚ) * 2 ^ (e - 52) < ((2 ^ 53 : ℤ) : ℚ) * 2 ^ (e - 52) := by
            apply mul_lt_mul_of_pos_right _ (zpow_pos two_pos _)
            exact_mod_cast hm53
      _ = 2 ^ (e + 1) := by
            rw [cast_two_pow_53, ← zpow_add₀ (two_ne_zero : (2 : ℚ) ≠ 0)]
            congr 1
            ring
    have hv_low : (2 : ℚ) ^ e ≤ roundF64 x := by
      rw [he]
      exact two_pow_le_roundF64 hx
    have hie : ilog2 (roundF64 x) = e := ilog2_eq_of hvpos hv_low hv_up
    rw [roundF64_pos_eq hvpos, hie, hrx]
    have harg : ((m : ℤ) : ℚ) * 2 ^ (e - 52) * 2 ^ (52 - e) = ((m : ℤ) : ℚ) := by
      rw [mul_assoc, ← zpow_add₀ (two_ne_zero : (2 : ℚ) ≠ 0),
        show e - 52 + (52 - e) = 0 by ring, zpow_zero, mul_one]
    rw [harg, rndHE_intCast]
  · have hveq : roundF64 x = 2 ^ (e + 1) := by
      rw [hrx, hm53, cast_two_pow_53, ← zpow_add₀ (two_ne_zero : (2 : ℚ) ≠ 0)]
      congr 1
      ring
    have hie : ilog2 (roundF64 x) = e + 1 := by
      apply ilog2_eq_of hvpos (by rw [hveq])
      rw [hveq]
      have hp : (0 : ℚ) < 2 ^ (e + 1) := zpow_pos two_pos _
      calc (2 : ℚ) ^ (e + 1) < 2 ^ (e + 1) * 2 := by linarith
      _ = 2 ^ (e + 1 + 1) := by
            rw [zpow_add₀ (two_ne_zero : (2 : ℚ) ≠ 0) (e + 1) 1, zpow_one]
    rw [roundF64_pos_eq hvpos, hie, hveq]
    have harg : (2 : ℚ) ^ (e + 1) * 2 ^ (52 - (e + 1)) = ((2 ^ 52 : ℤ) : ℚ) := by
      rw [cast_two_pow_52, ← zpow_add₀ (two_ne_zero : (2 : ℚ) ≠ 0)]
      congr 1
      ring
    rw [harg, rndHE_intCast, cast_two_pow_52,
      ← zpow_add₀ (two_ne_zero : (2 : ℚ) ≠ 0)]
    congr 1
    ring

theorem roundF64_idem (x : ℚ) : roundF64 (roundF64 x) = roundF64 x := by
  rcases lt_trichotomy x 0 with hneg | hzero | hpos
  · have h1 : roundF64 (roundF64 (-x)) = roundF64 (-x) :=
      roundF64_idem_pos (by linarith)
    rw [roundF64_neg x, roundF64_neg (roundF64 x)] at h1
    exact neg_injective h1
  · rw [hzero, roundF64_zero, roundF64_zero]
  · exact roundF64_idem_pos hpos

/-! ### rust_decimal model

The settlement engine (`processor.rs`) computes rewards with the
rust_decimal crate: values are a 96-bit integer mantissa with a decimal
scale of at most 28.  Division produces the longest exactly-representable
quotient when one exists within the scale limit, and otherwise rounds the
28-digit quotient half away from zero; results whose mantissa exceeds
96 bits or whose scale exceeds 28 are rescaled by dropping decimal digits
with half-away-from-zero rounding. -/

/-- A rust_decimal value: mantissa `m` over scale `s`, denoting
`m / 10 ^ s`. -/
structure Dec where
  m : ℤ
  s : ℕ
deriving DecidableEq, Repr

/-- Rational value denoted by a rust_decimal. -/
def Dec.toRat (d : Dec) : ℚ := Rat.divInt d.m (Int.ofNat (10 ^ d.s))

/-- Maximum scale of a rust_decimal. -/
def decMaxScale : ℕ := 28

/-- Mantissa bound of a rust_decimal (96-bit unsigned magnitude). -/
def decMaxM : ℕ := 2 ^ 96

/-- Divide natural `n` by positive `d`, rounding half away from zero. -/
def rdUpNat (n d : ℕ) : ℕ := n / d + (if d ≤ 2 * (n % d) then 1 else 0)

/-- Divide integer `a` by the positive natural `d`, rounding the magnitude
half away from zero (sign-magnitude, as the crate works on magnitudes). -/
def rdUpInt (a : ℤ) (d : ℕ) : ℤ :=
  if a < 0 then -(Int.ofNat (rdUpNat a.natAbs d)) else Int.ofNat (rdUpNat a.natAbs d)

/-- Rescale a raw (mantissa, scale) pair until the mantissa fits in 96 bits
and the scale in 28, dropping one decimal digit at a time with
half-away-from-zero rounding, as the crate does for oversized intermediate
results.  (A mantissa overflow at scale 0 panics in the crate; the
settlement arithmetic never reaches that case and we leave the value
unchanged there.) -/
def decFit : ℤ → ℕ → Dec
  | m, 0 => ⟨m, 0⟩
  | m, s + 1 =>
    if m.natAbs < decMaxM ∧ s + 1 ≤ decMaxScale then ⟨m, s + 1⟩
    else decFit (rdUpInt m 10) s

/-- rust_decimal addition: rescale to the larger scale and add mantissas. -/
def decAdd (a b : Dec) : Dec :=
  let s := max a.s b.s
  decFit (a.m * Int.ofNat (10 ^ (s - a.s)) + b.m * Int.ofNat (10 ^ (s - b.s))) s

/-- rust_decimal negation. -/
def decNeg (a : Dec) : Dec := ⟨-a.m, a.s⟩

/-- rust_decimal subtraction. -/
def decSub (a b : Dec) : Dec := decAdd a (decNeg b)

/-- rust_decimal multiplication: multiply mantissas, add scales, rescale to
capacity. -/
def decMul (a b : Dec) : Dec := decFit (a.m * b.m) (a.s + b.s)

/-- Divide integer `a` by nonzero integer `b`, rounding half away from
zero (sign-magnitude). -/
def rdHalfAway (a b : ℤ) : ℤ :=
  let q := rdUpNat a.natAbs b.natAbs
  if (decide (a < 0)) = (decide (b < 0)) then Int.ofNat q else -(Int.ofNat q)

/-- Core of rust_decimal division of `n` by `d` (`d ≠ 0`): take the least
scale at which the quotient is exact if one exists within the scale cap,
otherwise round the quotient half away from zero at the maximal scale. -/
def decDivCore (n d : ℤ) : Dec :=
  match (List.range (decMaxScale + 1)).find?
      (fun e => (n * Int.ofNat (10 ^ e)) % d = 0) with
  | some e => decFit ((n * Int.ofNat (10 ^ e)) / d) e
  | none => decFit (rdHalfAway (n * Int.ofNat (10 ^ decMaxScale)) d) decMaxScale

/-- rust_decimal division. -/
def decDiv (a b : Dec) : Dec :=
  decDivCore (a.m * Int.ofNat (10 ^ b.s)) (b.m * Int.ofNat (10 ^ a.s))

/-- rust_decimal comparison (values are compared after rescaling to a
common scale). -/
def decLt (a b : Dec) : Bool :=
  a.m * Int.ofNat (10 ^ b.s) < b.m * Int.ofNat (10 ^ a.s)

/-- rust_decimal comparison, non-strict. -/
def decLe (a b : Dec) : Bool :=
  a.m * Int.ofNat (10 ^ b.s) ≤ b.m * Int.ofNat (10 ^ a.s)

/-- The decimal zero, `Decimal::from(0)`. -/
def decZero : Dec := ⟨0, 0⟩

/-- `Decimal::from(n)` for a natural count. -/
def decOfNat (n : ℕ) : Dec := ⟨Int.ofNat n, 0⟩

example : decDiv (decOfNat 2) (decOfNat 3) = ⟨6666666666666666666666666667, 28⟩ := by
  decide
example : decDiv (decOfNat 1) (decOfNat 3) = ⟨3333333333333333333333333333, 28⟩ := by
  decide
example : decDiv (decOfNat 1) (decOfNat 6) = ⟨1666666666666666666666666667, 28⟩ := by
  decide
example : decDiv (decOfNat 30) (decOfNat 100) = ⟨3, 1⟩ := by decide
example : decMul (decOfNat 100) (decDiv (decOfNat 30) (decOfNat 100)) = ⟨300, 1⟩ := by
  decide
example : decAdd ⟨300, 1⟩ ⟨700, 1⟩ = ⟨1000, 1⟩ := by decide
example : decSub (decOfNat 100) ⟨1000, 1⟩ = ⟨0, 1⟩ := by decide

theorem decFit_eq {m : ℤ} {s : ℕ} (h : m.natAbs < decMaxM) (hs : s ≤ decMaxScale) :
    decFit m s = ⟨m, s⟩ := by
  cases s with
  | zero => rfl
  | succ s => exact if_pos ⟨h, hs⟩

theorem toRat_mk (m : ℤ) (s : ℕ) :
    Dec.toRat ⟨m, s⟩ = (m : ℚ) / ((10 : ℚ) ^ s) := by
  rw [Dec.toRat, Rat.divInt_eq_div]
  push_cast [Int.ofNat_eq_natCast]
  ring

theorem pow10_pos (s : ℕ) : (0 : ℚ) < (10 : ℚ) ^ s := by positivity

theorem decAdd_toRat {a b : Dec}
    (h : (a.m * Int.ofNat (10 ^ (max a.s b.s - a.s))
          + b.m * Int.ofNat (10 ^ (max a.s b.s - b.s))).natAbs < decMaxM)
    (hs : max a.s b.s ≤ decMaxScale) :
    (decAdd a b).toRat = a.toRat + b.toRat := by
  obtain ⟨am, as⟩ := a
  obtain ⟨bm, bs⟩ := b
  simp only [decAdd] at *
  rw [decFit_eq h hs]
  rw [toRat_mk, toRat_mk, toRat_mk]
  push_cast [Int.ofNat_eq_natCast]
  rw [div_add_div _ _ (ne_of_gt (pow10_pos as)) (ne_of_gt (pow10_pos bs))]
  rw [div_eq_div_iff (pow10_pos (max as bs)).ne.symm
    (mul_pos (pow10_pos as) (pow10_pos bs)).ne.symm]
  rw [add_mul, add_mul]
  have h1 : max as bs - as + as = max as bs := by omega
  have h2 : max as bs - bs + bs = max as bs := by omega
  have e1 : (10 : ℚ) ^ (max as bs - as) * 10 ^ as = 10 ^ max as bs := by
    rw [← pow_add, h1]
  have e2 : (10 : ℚ) ^ (max as bs - bs) * 10 ^ bs = 10 ^ max as bs := by
    rw [← pow_add, h2]
  linear_combination ((am : ℚ) * 10 ^ bs) * e1 + ((bm : ℚ) * 10 ^ as) * e2

theorem decNeg_toRat (a : Dec) : (decNeg a).toRat = -a.toRat := by
  obtain ⟨am, as⟩ := a
  rw [decNeg, toRat_mk, toRat_mk]
  push_cast
  ring

theorem decSub_toRat {a b : Dec}
    (h : (a.m * Int.ofNat (10 ^ (max a.s b.s - a.s))
          + (-b.m) * Int.ofNat (10 ^ (max a.s b.s - b.s))).natAbs < decMaxM)
    (hs : max a.s b.s ≤ decMaxScale) :
    (decSub a b).toRat = a.toRat - b.toRat := by
  obtain ⟨am, as⟩ := a
  obtain ⟨bm, bs⟩ := b
  have hneg : decSub ⟨am, as⟩ ⟨bm, bs⟩ = decAdd ⟨am, as⟩ ⟨-bm, bs⟩ := rfl
  rw [hneg, @decAdd_toRat ⟨am, as⟩ ⟨-bm, bs⟩ h hs]
  have h2 : (Dec.toRat ⟨-bm, bs⟩) = -(Dec.toRat ⟨bm, bs⟩) := decNeg_toRat ⟨bm, bs⟩
  rw [h2]
  ring

theorem decLt_iff {a b : Dec} : decLt a b = true ↔ a.toRat < b.toRat := by
  obtain ⟨am, as⟩ := a
  obtain ⟨bm, bs⟩ := b
  simp only [decLt, toRat_mk, decide_eq_true_eq]
  rw [div_lt_div_iff₀ (pow10_pos as) (pow10_pos bs)]
  constructor
  · intro h
    have h2 : ((am * Int.ofNat (10 ^ bs) : ℤ) : ℚ) < ((bm * Int.ofNat (10 ^ as) : ℤ) : ℚ) := by
      exact_mod_cast h
    push_cast [Int.ofNat_eq_natCast] at h2
    linarith
  · intro h
    have h2 : ((am * Int.ofNat (10 ^ bs) : ℤ) : ℚ) < ((bm * Int.ofNat (10 ^ as) : ℤ) : ℚ) := by
      push_cast [Int.ofNat_eq_natCast]
      linarith
    exact_mod_cast h2

theorem decLe_iff {a b : Dec} : decLe a b = true ↔ a.toRat ≤ b.toRat := by
  obtain ⟨am, as⟩ := a
  obtain ⟨bm, bs⟩ := b
  simp only [decLe, toRat_mk, decide_eq_true_eq]
  rw [div_le_div_iff₀ (pow10_pos as) (pow10_pos bs)]
  constructor
  · intro h
    have h2 : ((am * Int.ofNat (10 ^ bs) : ℤ) : ℚ) ≤ ((bm * Int.ofNat (10 ^ as) : ℤ) : ℚ) := by
      exact_mod_cast h
    push_cast [Int.ofNat_eq_natCast] at h2
    linarith
  · intro h
    have h2 : ((am * Int.ofNat (10 ^ bs) : ℤ) : ℚ) ≤ ((bm * Int.ofNat (10 ^ as) : ℤ) : ℚ) := by
      push_cast [Int.ofNat_eq_natCast]
      linarith
    exact_mod_cast h2

theorem decZero_toRat : decZero.toRat = 0 := by decide

theorem decOfNat_toRat (n : ℕ) : (decOfNat n).toRat = (n : ℚ) := by
  rw [decOfNat, toRat_mk]
  push_cast [Int.ofNat_eq_natCast]
  simp

/-! ### Stable sort helper

Rust slice sort_by is a stable sort; we model it by stable insertion
sort: an element is moved past exactly those earlier-sorted elements that
strictly precede it. -/

/-- Insert `x` after every leading element that strictly precedes it
(stable insertion). -/
def insertBy {α : Type} (before : α → α → Bool) (x : α) : List α → List α
  | [] => [x]
  | y :: ys => if before y x then y :: insertBy before x ys else x :: y :: ys

/-- Stable insertion sort by the strict precedence test `before`. -/
def sortBy {α : Type} (before : α → α → Bool) : List α → List α
  | [] => []
  | x :: xs => insertBy before x (sortBy before xs)

theorem insertBy_perm {α : Type} (before : α → α → Bool) (x : α) :
    ∀ l : List α, (insertBy before x l).Perm (x :: l)
  | [] => List.Perm.refl _
  | y :: ys => by
    rw [insertBy]
    split_ifs with h
    · exact List.Perm.trans (List.Perm.cons y (insertBy_perm before x ys))
        (List.Perm.swap x y ys)
    · exact List.Perm.refl _

theorem sortBy_perm {α : Type} (before : α → α → Bool) :
    ∀ l : List α, (sortBy before l).Perm l
  | [] => List.Perm.refl _
  | x :: xs => by
    rw [sortBy]
    exact List.Perm.trans (insertBy_perm before x _)
      (List.Perm.cons x (sortBy_perm before xs))

theorem insertBy_pairwise {α : Type} (before : α → α → Bool)
    (htrans : ∀ a b c, before c b = false → before b a = false → before c a = false)
    (hasymm : ∀ a b, before a b = true → before b a = false)
    (x : α) : ∀ l : List α, l.Pairwise (fun a b => before b a = false) →
      (insertBy before x l).Pairwise (fun a b => before b a = false)
  | [], _ => by simp [insertBy]
  | y :: ys, hp => by
    rw [insertBy]
    rcases List.pairwise_cons.1 hp with ⟨hy, hys⟩
    split_ifs with h
    · refine List.pairwise_cons.2 ⟨?_, insertBy_pairwise before htrans hasymm x ys hys⟩
      intro z hz
      rcases List.mem_cons.1 ((insertBy_perm before x ys).mem_iff.1 hz) with rfl | hzys
      · exact hasymm y z h
      · exact hy z hzys
    · have h2 : before y x = false := by
        revert h
        cases before y x <;> simp
      refine List.pairwise_cons.2 ⟨?_, hp⟩
      intro z hz
      rcases List.mem_cons.1 hz with rfl | hzys
      · exact h2
      · exact htrans _ _ _ (hy z hzys) h2

theorem sortBy_pairwise {α : Type} (before : α → α → Bool)
    (htrans : ∀ a b c, before c b = false → before b a = false → before c a = false)
    (hasymm : ∀ a b, before a b = true → before b a = false) :
    ∀ l : List α, (sortBy before l).Pairwise (fun a b => before b a = false)
  | [] => List.Pairwise.nil
  | x :: xs => insertBy_pairwise before htrans hasymm x _
      (sortBy_pairwise before htrans hasymm xs)

/-! ### The ledger store (db.rs)

Monetary TEXT columns are modelled by the rational value of the stored
text.  Timestamps are unix seconds (the RFC3339 strings compare
chronologically).  SQLite updates the connection-level last-insert-rowid
register on every successful row insert in any table, and leaves it
unchanged when ON CONFLICT suppresses the insert or turns it into an
update. -/

/-- Supported coins (db.rs Coin). -/
inductive Coin
  | xmr
  | xtm
  | aleo
deriving DecidableEq, Repr

/-- Payment status (db.rs PaymentStatus). -/
inductive PaymentStatus
  | pending
  | processing
  | confirmed
  | failed
deriving DecidableEq, Repr

/-- One row of the shares table. -/
structure ShareRow where
  rowid : ℤ
  coin : Coin
  walletAddress : String
  workerName : String
  difficulty : ℚ
  timestamp : ℤ
  blockHeight : Option ℤ
  isBlock : Bool
deriving DecidableEq, Repr

/-- One row of the balances table, keyed by (wallet_address, coin). -/
structure BalanceRow where
  walletAddress : String
  coin : Coin
  pendingBalance : ℚ
  totalPaid : ℚ
  totalShares : ℤ
  lastShare : Option ℤ
  lastPayment : Option ℤ
deriving DecidableEq, Repr

/-- One row of the payments table. -/
structure PaymentRow where
  id : String
  coin : Coin
  walletAddress : String
  amount : ℚ
  txHash : Option String
  status : PaymentStatus
  createdAt : ℤ
  confirmedAt : Option ℤ
  errorMessage : Option String
deriving DecidableEq, Repr

/-- One row of the blocks table. -/
structure BlockRow where
  rowid : ℤ
  coin : Coin
  blockHeight : ℤ
  blockHash : String
  reward : ℚ
  finderWallet : String
  finderWorker : String
  timestamp : ℤ
  distributed : Bool
deriving DecidableEq, Repr

/-- The SQLite store: four tables, per-table rowid counters, and the
connection last-insert-rowid register. -/
structure Db where
  shares : List ShareRow
  balances : List BalanceRow
  payments : List PaymentRow
  blocks : List BlockRow
  nextShareRowid : ℤ
  nextBalanceRowid : ℤ
  nextBlockRowid : ℤ
  nextPaymentRowid : ℤ
  lastInsertRowid : ℤ
deriving DecidableEq, Repr

/-- A freshly created store. -/
def Db.empty : Db := ⟨[], [], [], [], 1, 1, 1, 1, 0⟩

/-- db.rs record_share: append a share row stamped with the clock time of
the insertion, `now` (the Pool Source timestamp is NOT stored), then
upsert the balance row of the miner in the same serialized write
(share count + 1, last_share = now; a fresh balance row gets the default
pending and total_paid of 0); returns the rowid of the inserted share. -/
def Db.recordShare (db : Db) (now : ℤ) (coin : Coin)
    (walletAddress workerName : String) (difficulty : ℚ)
    (blockHeight : Option ℤ) (isBlock : Bool) : Db × ℤ :=
  let sid := db.nextShareRowid
  let row : ShareRow :=
    ⟨sid, coin, walletAddress, workerName, difficulty, now, blockHeight, isBlock⟩
  if db.balances.any (fun b => decide (b.walletAddress = walletAddress ∧ b.coin = coin)) then
    ({ db with
        shares := db.shares ++ [row]
        balances := db.balances.map (fun b =>
          if b.walletAddress = walletAddress ∧ b.coin = coin then
            { b with totalShares := b.totalShares + 1, lastShare := some now }
          else b)
        nextShareRowid := sid + 1
        lastInsertRowid := sid }, sid)
  else
    ({ db with
        shares := db.shares ++ [row]
        balances := db.balances ++ [⟨walletAddress, coin, 0, 0, 1, some now, none⟩]
        nextShareRowid := sid + 1
        nextBalanceRowid := db.nextBalanceRowid + 1
        lastInsertRowid := db.nextBalanceRowid }, sid)

/-- db.rs record_block: INSERT OR IGNORE keyed on the unique block hash.
On a duplicate hash nothing is inserted and the function still returns
result.last_insert_rowid(), i.e. the rowid of whatever row was last
inserted on the connection. -/
def Db.recordBlock (db : Db) (now : ℤ) (coin : Coin) (blockHeight : ℤ)
    (blockHash : String) (reward : ℚ)
    (finderWallet finderWorker : String) : Db × ℤ :=
  if db.blocks.any (fun b => decide (b.blockHash = blockHash)) then
    (db, db.lastInsertRowid)
  else
    let bid := db.nextBlockRowid
    ({ db with
        blocks := db.blocks ++
          [⟨bid, coin, blockHeight, blockHash, reward, finderWallet, finderWorker,
            now, false⟩]
        nextBlockRowid := bid + 1
        lastInsertRowid := bid }, bid)

/-- db.rs get_undistributed_blocks: blocks of the coin with
distributed = 0, by ascending height. -/
def Db.getUndistributedBlocks (db : Db) (coin : Coin) : List BlockRow :=
  sortBy (fun a b => decide (a.blockHeight < b.blockHeight))
    (db.blocks.filter (fun b => decide (b.coin = coin ∧ b.distributed = false)))

/-- db.rs mark_block_distributed: one-way flip of the distributed flag. -/
def Db.markBlockDistributed (db : Db) (blockId : ℤ) : Db :=
  { db with blocks := db.blocks.map (fun b =>
      if b.rowid = blockId then { b with distributed := true } else b) }

/-- db.rs add_pending_balance: additive upsert.  A fresh row stores the
bound decimal text exactly; the conflict branch computes
pending + amount through CAST(... AS REAL), i.e. binary64. -/
def Db.addPendingBalance (db : Db) (coin : Coin) (walletAddress : String)
    (amount : ℚ) : Db :=
  if db.balances.any (fun b => decide (b.walletAddress = walletAddress ∧ b.coin = coin)) then
    { db with balances := db.balances.map (fun b =>
        if b.walletAddress = walletAddress ∧ b.coin = coin then
          { b with pendingBalance := realAdd b.pendingBalance amount }
        else b) }
  else
    { db with
        balances := db.balances ++ [⟨walletAddress, coin, amount, 0, 0, none, none⟩]
        nextBalanceRowid := db.nextBalanceRowid + 1
        lastInsertRowid := db.nextBalanceRowid }

/-- db.rs get_payable_balances: rows of the coin whose pending text casts
to a REAL that is at least the threshold REAL. -/
def Db.getPayableBalances (db : Db) (coin : Coin) (minPayout : ℚ) :
    List BalanceRow :=
  db.balances.filter (fun b =>
    decide (b.coin = coin ∧ roundF64 minPayout ≤ roundF64 b.pendingBalance))

/-- db.rs get_miner_balance. -/
def Db.getMinerBalance (db : Db) (coin : Coin) (walletAddress : String) :
    Option BalanceRow :=
  db.balances.find? (fun b =>
    decide (b.coin = coin ∧ b.walletAddress = walletAddress))

/-- db.rs create_payment: insert a new payment row in status pending with
no transaction hash; the uuid is supplied by the caller.  Returns the id. -/
def Db.createPayment (db : Db) (now : ℤ) (id : String) (coin : Coin)
    (walletAddress : String) (amount : ℚ) : Db × String :=
  ({ db with
      payments := db.payments ++
        [⟨id, coin, walletAddress, amount, none, PaymentStatus.pending, now,
          none, none⟩]
      nextPaymentRowid := db.nextPaymentRowid + 1
      lastInsertRowid := db.nextPaymentRowid }, id)

/-- db.rs update_payment_status: set status on the matching row, keep the
old tx_hash when none is supplied (COALESCE), set confirmed_at only for
Confirmed (and clear it otherwise), overwrite error_message; then, if and
only if the new status is Confirmed, update the matching balance row in
the same serialized write: pending and total_paid through
CAST(... AS REAL) binary64 arithmetic and last_payment to now.  Nothing
inspects the PREVIOUS status of the payment row. -/
def Db.updatePaymentStatus (db : Db) (now : ℤ) (paymentId : String)
    (status : PaymentStatus) (txHash : Option String)
    (errorMessage : Option String) : Db :=
  let payments2 := db.payments.map (fun p =>
    if p.id = paymentId then
      { p with
          status := status
          txHash := txHash.or p.txHash
          confirmedAt := if status = PaymentStatus.confirmed then some now else none
          errorMessage := errorMessage }
    else p)
  let db2 : Db := { db with payments := payments2 }
  if status = PaymentStatus.confirmed then
    match payments2.find? (fun p => decide (p.id = paymentId)) with
    | none => db2
    | some p =>
      { db2 with balances := db2.balances.map (fun b =>
          if b.walletAddress = p.walletAddress ∧ b.coin = p.coin then
            { b with
                pendingBalance := realSub b.pendingBalance p.amount
                totalPaid := realAdd b.totalPaid p.amount
                lastPayment := some now }
          else b) }
  else db2

/-- db.rs get_pending_payments: payments of the coin in status pending or
processing.  (ORDER BY created_at ASC: the table is append-only and the
engine clock is monotone, so stored order is creation order.) -/
def Db.getPendingPayments (db : Db) (coin : Coin) : List PaymentRow :=
  db.payments.filter (fun p => decide (p.coin = coin ∧
    (p.status = PaymentStatus.pending ∨ p.status = PaymentStatus.processing)))

/-- db.rs get_share_count_in_range: shares of the miner whose STORED
timestamp (the ingestion time) lies in the closed range. -/
def Db.getShareCountInRange (db : Db) (coin : Coin) (walletAddress : String)
    (tFrom tTo : ℤ) : ℤ :=
  ((db.shares.filter (fun sh => decide (sh.coin = coin ∧
    sh.walletAddress = walletAddress ∧
    tFrom ≤ sh.timestamp ∧ sh.timestamp ≤ tTo))).length : ℤ)

/-- db.rs get_total_shares_in_range. -/
def Db.getTotalSharesInRange (db : Db) (coin : Coin) (tFrom tTo : ℤ) : ℤ :=
  ((db.shares.filter (fun sh => decide (sh.coin = coin ∧
    tFrom ≤ sh.timestamp ∧ sh.timestamp ≤ tTo))).length : ℤ)

/-- db.rs get_miners_in_range: distinct wallet addresses with a share in
the range. -/
def Db.getMinersInRange (db : Db) (coin : Coin) (tFrom tTo : ℤ) : List String :=
  ((db.shares.filter (fun sh => decide (sh.coin = coin ∧
    tFrom ≤ sh.timestamp ∧ sh.timestamp ≤ tTo))).map
      ShareRow.walletAddress).dedup

/-! ### The settlement engine (processor.rs) and wallet interface -/

/-- A share as reported by a Pool Source (pools/mod.rs ShareInfo). -/
structure ShareInfo where
  walletAddress : String
  workerName : String
  difficulty : ℚ
  blockHeight : Option ℤ
  isBlock : Bool
  timestamp : ℤ
deriving DecidableEq, Repr

/-- The loop body of processor.rs sync_shares: record every fetched share
through record_share.  Each insertion is stamped with the store clock
(successive Utc::now() values, modelled by the stream `clock`); the
timestamp reported by the Pool Source is not passed to the store. -/
def recordShareFold (coin : Coin) : Db → (ℕ → ℤ) → List ShareInfo → Db
  | db, _, [] => db
  | db, clock, sh :: rest =>
    recordShareFold coin
      ((db.recordShare (clock 0) coin sh.walletAddress sh.workerName
        sh.difficulty sh.blockHeight sh.isBlock).1)
      (fun i => clock (i + 1)) rest

/-- processor.rs sync_shares over an already-fetched batch, with an
optional injected storage failure: `failAt = some n` (with `n` inside the
batch) makes the n-th record_share call fail, which aborts the loop
through the error operator after the first `n` shares are recorded and
leaves the in-memory watermark at its old value.  On success the
watermark advances to the maximum reported timestamp, never below its old
value.  Returns the store and the watermark after the call. -/
def syncShares (db : Db) (coin : Coin) (since : ℤ) (shares : List ShareInfo)
    (clock : ℕ → ℤ) (failAt : Option ℕ) : Db × ℤ :=
  match failAt with
  | some n =>
    if n < shares.length then
      (recordShareFold coin db clock (shares.take n), since)
    else
      (recordShareFold coin db clock shares,
        shares.foldl (fun acc sh => max acc sh.timestamp) since)
  | none =>
    (recordShareFold coin db clock shares,
      shares.foldl (fun acc sh => max acc sh.timestamp) since)

/-- The share row inserted for the element at offset `i` of a batch. -/
def shareRowOf (startRowid : ℤ) (coin : Coin) (clock : ℕ → ℤ)
    (i : ℕ) (sh : ShareInfo) : ShareRow :=
  ⟨startRowid + i, coin, sh.walletAddress, sh.workerName, sh.difficulty,
    clock i, sh.blockHeight, sh.isBlock⟩

/-- `Decimal::from` on an integer share count. -/
def decOfInt (z : ℤ) : Dec := ⟨z, 0⟩

/-- The PPLNS lookback before a block (processor.rs: 3600 seconds). -/
def lookbackSecs : ℤ := 3600

/-- The per-miner credits (miner, Decimal amount) that processor.rs
distribute_rewards computes for one block when the one-hour window holds
shares: reward * Decimal(miner_shares) / Decimal(total_shares) for each
miner with shares in the window, in miner order.  The store writes of the
credits do not touch the shares table, so computing all credits against
the initial store is equivalent to the interleaved reads of the source. -/
def perCredits (db : Db) (blk : BlockRow) (reward : Dec) :
    List (String × Dec) :=
  let wStart := blk.timestamp - lookbackSecs
  let wEnd := blk.timestamp
  let total := db.getTotalSharesInRange blk.coin wStart wEnd
  (db.getMinersInRange blk.coin wStart wEnd).filterMap (fun w =>
    let cnt := db.getShareCountInRange blk.coin w wStart wEnd
    if 0 < cnt then
      some (w, decMul reward (decDiv (decOfInt cnt) (decOfInt total)))
    else none)

/-- The running distributed total of distribute_rewards (the fold of the
Decimal += over the per-miner credits). -/
def distributedTotal (db : Db) (blk : BlockRow) (reward : Dec) : Dec :=
  (perCredits db blk reward).foldl (fun acc c => decAdd acc c.2) decZero

/-- All pending-balance credits distribute_rewards issues for one
undistributed block: if the one-hour window before the block holds no
shares, one credit of the full reward to the finder; otherwise the
per-miner credits followed by a credit of the remainder
reward - total_distributed to the finder only when that remainder is
strictly positive.  `reward` is the Decimal parsed from the stored reward
text (the parse is exact on decimal text). -/
def distributeBlockCredits (db : Db) (blk : BlockRow) (reward : Dec) :
    List (String × Dec) :=
  if db.getTotalSharesInRange blk.coin (blk.timestamp - lookbackSecs)
      blk.timestamp = 0 then [(blk.finderWallet, reward)]
  else
    let remainder := decSub reward (distributedTotal db blk reward)
    if decLt decZero remainder then
      perCredits db blk reward ++ [(blk.finderWallet, remainder)]
    else perCredits db blk reward

/-- processor.rs distribute_rewards for one block: issue every credit
through add_pending_balance, then mark the block distributed. -/
def distributeRewardsForBlock (db : Db) (blk : BlockRow) (reward : Dec) : Db :=
  (((distributeBlockCredits db blk reward).foldl
      (fun d c => d.addPendingBalance blk.coin c.1 c.2.toRat) db)).markBlockDistributed
    blk.rowid

/-- wallets/mod.rs TxStatus. -/
inductive TxStatus
  | pending
  | confirming (confirmations : ℕ)
  | confirmed
  | failed (reason : String)
  | notFound
deriving DecidableEq, Repr

/-- Outcome of one wallet send_payment call. -/
inductive SendOutcome
  | ok (txHash : String)
  | err (msg : String)
deriving DecidableEq, Repr

/-- processor.rs confirm_payments: for every pending/processing payment of
the coin (snapshot taken once) that has a transaction hash, ask the
wallet for the transaction status.  Confirmed marks the payment Confirmed
(settling the balance inside the store), Failed(reason) marks it Failed
with the reason; Confirming, Pending, NotFound and wallet errors leave
the store untouched.  `txStatus` is the wallet oracle, none modelling an
RPC error. -/
def confirmPayments (db : Db) (now : ℤ) (coin : Coin)
    (txStatus : String → Option TxStatus) : Db :=
  (db.getPendingPayments coin).foldl (fun d p =>
    match p.txHash with
    | none => d
    | some tx =>
      match txStatus tx with
      | some TxStatus.confirmed =>
        d.updatePaymentStatus now p.id PaymentStatus.confirmed none none
      | some (TxStatus.failed reason) =>
        d.updatePaymentStatus now p.id PaymentStatus.failed none (some reason)
      | _ => d) db

/-- monero.rs required_confirmations: fixed at 10. -/
def moneroRequiredConfirmations : ℕ := 10

/-- A get_transfer_by_txid RPC reply as monero.rs get_tx_status sees it. -/
inductive MoneroRpcReply
  | ok (confirmations : Option ℕ)
  | errNotFound
  | errOther (msg : String)
deriving DecidableEq, Repr

/-- monero.rs get_tx_status: a successful reply carries an optional
confirmation count (missing counts as 0); at least
required_confirmations is Confirmed, a positive smaller count is
Confirming, zero is Pending.  An RPC error whose message contains
"not found" maps to NotFound; other errors propagate (none). -/
def moneroGetTxStatus (reply : MoneroRpcReply) : Option TxStatus :=
  match reply with
  | MoneroRpcReply.ok confs =>
    let c := confs.getD 0
    if moneroRequiredConfirmations ≤ c then some TxStatus.confirmed
    else if 0 < c then some (TxStatus.confirming c)
    else some TxStatus.pending
  | MoneroRpcReply.errNotFound => some TxStatus.notFound
  | MoneroRpcReply.errOther _ => none

/-- confirm_payments of an xmr engine wired to the monero wallet. -/
def moneroConfirmPayments (db : Db) (now : ℤ)
    (replies : String → MoneroRpcReply) : Db :=
  confirmPayments db now Coin.xmr (fun tx => moneroGetTxStatus (replies tx))

/-- Parse a stored decimal text back into a Decimal, as the engine does
when reading balances (MinerBalance.pending_balance).  The text denotes
the rational `q`; the parse is exact whenever the value fits a decimal
scale of at most 28, which holds for every text the system itself
writes. -/
def ratToDec (q : ℚ) : Dec :=
  match (List.range (decMaxScale + 1)).find? (fun s => 10 ^ s % q.den = 0) with
  | some s => ⟨q.num * Int.ofNat (10 ^ s / q.den), s⟩
  | none => ⟨0, 0⟩

/-- processor.rs send_payment: create the payment row, attempt the wallet
send, and mark the row Processing with the transaction hash on success or
Failed with the error message on failure. -/
def sendPaymentStep (db : Db) (now : ℤ) (coin : Coin) (uuid : String)
    (address : String) (amount : Dec) (outcome : SendOutcome) : Db :=
  let db1 := (db.createPayment now uuid coin address amount.toRat).1
  match outcome with
  | SendOutcome.ok tx =>
    db1.updatePaymentStatus now uuid PaymentStatus.processing (some tx) none
  | SendOutcome.err msg =>
    db1.updatePaymentStatus now uuid PaymentStatus.failed none (some msg)

/-- processor.rs process_payments.  `walletBalance` is the spendable
balance reported by the wallet, `batch` the outcome of
send_batch_payment (the (address, tx hash) pairs, or none for a batch
error), `sends` the outcome of each individual send_payment fallback,
and `uuids` the stream of payment ids.  If the wallet balance covers the
total payable, one batch payment is attempted, recording one Processing
row per returned pair (amount looked up in the payable list, 0 when
absent); on batch failure every payee is retried individually.  If the
balance falls short, payees are sorted by pending amount descending and
each one whose full amount fits the remaining balance is paid
individually, a successful send reducing the remaining balance. -/
def processPayments (db : Db) (now : ℤ) (coin : Coin) (minPayout : ℚ)
    (walletBalance : Dec) (batch : Option (List (String × String)))
    (sends : String → SendOutcome) (uuids : ℕ → String) : Db :=
  let payable := db.getPayableBalances coin minPayout
  if payable.isEmpty then db
  else
    let total := payable.foldl
      (fun acc b => decAdd acc (ratToDec b.pendingBalance)) decZero
    if decLt walletBalance total then
      let sorted := sortBy
        (fun a b => decLt (ratToDec b.pendingBalance) (ratToDec a.pendingBalance))
        payable
      (sorted.foldl (fun st b =>
          let amt := ratToDec b.pendingBalance
          if decLe amt st.2.1 then
            match sends b.walletAddress with
            | SendOutcome.ok tx =>
              (sendPaymentStep st.1 now coin (uuids st.2.2) b.walletAddress amt
                (SendOutcome.ok tx), (decSub st.2.1 amt, st.2.2 + 1))
            | SendOutcome.err msg =>
              (sendPaymentStep st.1 now coin (uuids st.2.2) b.walletAddress amt
                (SendOutcome.err msg), (st.2.1, st.2.2 + 1))
          else st)
        (db, (walletBalance, 0))).1
    else
      match batch with
      | some results =>
        (results.foldl (fun st r =>
            let amt := ((payable.find? (fun b => decide (b.walletAddress = r.1))).map
              (fun b => ratToDec b.pendingBalance)).getD decZero
            let d1 := (st.1.createPayment now (uuids st.2) coin r.1 amt.toRat).1
            (d1.updatePaymentStatus now (uuids st.2) PaymentStatus.processing
              (some r.2) none, st.2 + 1))
          (db, 0)).1
      | none =>
        (payable.foldl (fun st b =>
            (sendPaymentStep st.1 now coin (uuids st.2) b.walletAddress
              (ratToDec b.pendingBalance) (sends b.walletAddress), st.2 + 1))
          (db, 0)).1

/-- Rank of a payment status along the lifecycle
Pending -> Processing -> terminal. -/
def statusRank : PaymentStatus → ℕ
  | PaymentStatus.pending => 0
  | PaymentStatus.processing => 1
  | PaymentStatus.confirmed => 2
  | PaymentStatus.failed => 2

/-- A payment status is terminal when it is Confirmed or Failed. -/
def terminalStatus (st : PaymentStatus) : Prop :=
  st = PaymentStatus.confirmed ∨ st = PaymentStatus.failed

/-- One engine-driven store interaction, with every backend response it
consumes supplied as data. -/
inductive EngineOp
  | syncOp (coin : Coin) (shares : List ShareInfo) (clock : ℕ → ℤ)
  | recordBlockOp (now : ℤ) (coin : Coin) (height : ℤ) (hash : String)
      (reward : ℚ) (finderWallet finderWorker : String)
  | distributeOp (blk : BlockRow) (reward : Dec)
  | confirmOp (now : ℤ) (coin : Coin) (txStatus : String → Option TxStatus)
  | payoutOp (now : ℤ) (coin : Coin) (minPayout : ℚ) (walletBalance : Dec)
      (batch : Option (List (String × String))) (sends : String → SendOutcome)
      (uuids : ℕ → String)

/-- Execute one engine operation against the store. -/
def runEngineOp (db : Db) : EngineOp → Db
  | EngineOp.syncOp coin shares clock => recordShareFold coin db clock shares
  | EngineOp.recordBlockOp now coin height hash reward fw fwk =>
    (db.recordBlock now coin height hash reward fw fwk).1
  | EngineOp.distributeOp blk reward => distributeRewardsForBlock db blk reward
  | EngineOp.confirmOp now coin txStatus => confirmPayments db now coin txStatus
  | EngineOp.payoutOp now coin minPayout walletBalance batch sends uuids =>
    processPayments db now coin minPayout walletBalance batch sends uuids

example : roundF64 (mkRat 1 10) = Rat.divInt 3602879701896397 36028797018963968 := by
  decide

example : roundF64 (mkRat 2 10) = Rat.divInt 3602879701896397 18014398509481984 := by
  decide

unseal Rat.add Rat.sub in
example : realAdd (mkRat 1 10) (mkRat 2 10) =
    Rat.divInt 5404319552844596 18014398509481984 := by decide

unseal Rat.add Rat.sub in
example : realAdd (mkRat 1 10) (mkRat 2 10) ≠ mkRat 3 10 := by decide

example : roundF64 100 = 100 := by decide

unseal Rat.add Rat.sub in
example : realSub 100 30 = 70 := by decide

unseal Rat.add Rat.sub in
example : realSub (mkRat 3 10) (mkRat 1 10) ≠ mkRat 2 10 := by decide

/-! ### Keyed lookup helpers for the balances table -/

theorem balances_map_find (bs : List BalanceRow) (addr : String) (c : Coin)
    (f : BalanceRow → BalanceRow)
    (hkey : ∀ b, (f b).walletAddress = b.walletAddress ∧ (f b).coin = b.coin) :
    ((bs.map (fun b => if b.walletAddress = addr ∧ b.coin = c then f b else b)).find?
      (fun b => decide (b.coin = c ∧ b.walletAddress = addr)))
    = (bs.find? (fun b => decide (b.coin = c ∧ b.walletAddress = addr))).map f := by
  induction bs with
  | nil => rfl
  | cons hd t ih =>
    by_cases hk : hd.walletAddress = addr ∧ hd.coin = c
    · have hpf : (decide ((f hd).coin = c ∧ (f hd).walletAddress = addr)) = true := by
        rcases hkey hd with ⟨ha, hc⟩
        simp [ha, hc, hk.1, hk.2]
      have hp : (decide (hd.coin = c ∧ hd.walletAddress = addr)) = true := by
        simp [hk.1, hk.2]
      simp only [List.map_cons, if_pos hk, List.find?_cons, hpf, hp]
      rfl
    · have hp : (decide (hd.coin = c ∧ hd.walletAddress = addr)) = false := by
        simp only [decide_eq_false_iff_not]
        tauto
      simp only [List.map_cons, if_neg hk, List.find?_cons, hp, ih]

theorem balances_any_eq_isSome (bs : List BalanceRow) (addr : String) (c : Coin) :
    bs.any (fun b => decide (b.walletAddress = addr ∧ b.coin = c))
    = (bs.find? (fun b => decide (b.coin = c ∧ b.walletAddress = addr))).isSome := by
  cases hf : bs.find? (fun b => decide (b.coin = c ∧ b.walletAddress = addr)) with
  | some b =>
    have hmem := List.mem_of_find?_eq_some hf
    have hpred := List.find?_some hf
    simp only [decide_eq_true_eq] at hpred
    simp only [Option.isSome_some]
    rw [List.any_eq_true]
    exact ⟨b, hmem, by simp [hpred.1, hpred.2]⟩
  | none =>
    have hall := List.find?_eq_none.1 hf
    simp only [Option.isSome_none]
    rw [List.any_eq_false]
    intro b hb
    have := hall b hb
    simp only [decide_eq_true_eq] at this ⊢
    tauto

theorem getMinerBalance_addPending (db : Db) (c : Coin) (addr : String) (a : ℚ) :
    (db.addPendingBalance c addr a).getMinerBalance c addr
    = match db.getMinerBalance c addr with
      | some b => some { b with pendingBalance := realAdd b.pendingBalance a }
      | none => some ⟨addr, c, a, 0, 0, none, none⟩ := by
  rw [Db.addPendingBalance]
  cases hf : db.getMinerBalance c addr with
  | some b =>
    have hany : db.balances.any
        (fun b => decide (b.walletAddress = addr ∧ b.coin = c)) = true := by
      rw [balances_any_eq_isSome]
      rw [Db.getMinerBalance] at hf
      rw [hf]
      rfl
    rw [if_pos hany, Db.getMinerBalance]
    rw [Db.getMinerBalance] at hf
    rw [balances_map_find db.balances addr c
      (fun b => { b with pendingBalance := realAdd b.pendingBalance a })
      (fun b => ⟨rfl, rfl⟩), hf]
    rfl
  | none =>
    have hany : db.balances.any
        (fun b => decide (b.walletAddress = addr ∧ b.coin = c)) = false := by
      rw [balances_any_eq_isSome]
      rw [Db.getMinerBalance] at hf
      rw [hf]
      rfl
    rw [if_neg (by rw [hany]; exact Bool.false_ne_true), Db.getMinerBalance]
    rw [Db.getMinerBalance] at hf
    rw [List.find?_append, hf, Option.none_or]
    rw [List.find?_cons_of_pos _ (by simp)]

/-! ### Claim C3: monetary storage and arithmetic -/

unseal Rat.add Rat.sub in
/-- C3 counterexample: the store keeps monetary values as decimal text,
but add_pending_balance computes the conflict update through
CAST(... AS REAL): storing 0.1 and then adding 0.2 leaves the binary64
value 0.30000000000000004..., not the exact decimal 0.3 — the store does
compute with binary floating point and drifts. -/
theorem claim3_counterexample :
    ((((Db.empty.addPendingBalance Coin.xmr "a" (mkRat 1 10)).addPendingBalance
        Coin.xmr "a" (mkRat 2 10)).getMinerBalance Coin.xmr "a").map
      BalanceRow.pendingBalance) ≠ some (mkRat 1 10 + mkRat 2 10) ∧
    ((((Db.empty.addPendingBalance Coin.xmr "a" (mkRat 1 10)).addPendingBalance
        Coin.xmr "a" (mkRat 2 10)).getMinerBalance Coin.xmr "a").map
      BalanceRow.pendingBalance)
      = some (Rat.divInt 5404319552844596 18014398509481984) := by
  constructor
  · decide
  · decide

/-- C3 amended: monetary values are stored as decimal text, but the
additive balance update of add_pending_balance computes through binary64
(CAST AS REAL); it is exact exactly on binary64-representable operands
with a representable sum. -/
theorem claim3_decimal_storage (db : Db) (c : Coin) (addr : String) (p a : ℚ)
    (hrow : (db.getMinerBalance c addr).map BalanceRow.pendingBalance = some p)
    (hp : roundF64 p = p) (ha : roundF64 a = a)
    (hpa : roundF64 (p + a) = p + a) :
    ((db.addPendingBalance c addr a).getMinerBalance c addr).map
      BalanceRow.pendingBalance = some (p + a) := by
  rw [getMinerBalance_addPending]
  cases hf : db.getMinerBalance c addr with
  | none => rw [hf] at hrow; simp at hrow
  | some b =>
    rw [hf] at hrow
    simp only [Option.map_some] at hrow ⊢
    have hb : b.pendingBalance = p := by
      injection hrow
    simp only [hb]
    rw [realAdd, hp, ha, hpa]
    rfl

unseal Rat.add Rat.sub in
/-- C3 witness: an exact case of the amended statement. -/
theorem claim3_witness :
    (((Db.empty.addPendingBalance Coin.xmr "w" 100).addPendingBalance
        Coin.xmr "w" 25).getMinerBalance Coin.xmr "w").map
      BalanceRow.pendingBalance = some (100 + 25) :=
  claim3_decimal_storage _ Coin.xmr "w" 100 25 (by decide) (by decide)
    (by decide) (by decide)

/-! ### Claim C7: record_block idempotency and return value -/

/-- C7 counterexample: record A (rowid 1), record B (rowid 2), then record
A again.  The duplicate call inserts nothing (exactly one row for the
hash remains) but returns last_insert_rowid = 2, which is not the row id
of the A block (1) — refuting the claim that every call returns the row
id of that block. -/
theorem claim7_counterexample :
    ((((Db.empty.recordBlock 0 Coin.xmr 100 "ha" 50 "f" "w").1).recordBlock 1
        Coin.xmr 101 "hb" 50 "f" "w").1.recordBlock 2 Coin.xmr 100 "ha" 50 "f"
        "w").2 = 2 ∧
    (((((Db.empty.recordBlock 0 Coin.xmr 100 "ha" 50 "f" "w").1).recordBlock 1
        Coin.xmr 101 "hb" 50 "f" "w").1.recordBlock 2 Coin.xmr 100 "ha" 50 "f"
        "w").1.blocks.filter (fun b => decide (b.blockHash = "ha"))).map
      BlockRow.rowid = [1] := by
  constructor
  · decide
  · decide

/-- C7 amended: recording a fresh hash inserts one row and returns its
row id; recording the same hash again changes nothing, so exactly one row
per hash remains — but the duplicate call returns the connection
last-insert-rowid, not necessarily that block's row id. -/
theorem claim7_idempotent (db : Db) (now1 now2 : ℤ) (c1 c2 : Coin)
    (h1 h2 : ℤ) (hash : String) (rw1 rw2 : ℚ) (f1 f2 w1 w2 : String)
    (hfresh : db.blocks.any (fun b => decide (b.blockHash = hash)) = false) :
    ((db.recordBlock now1 c1 h1 hash rw1 f1 w1).1.recordBlock now2 c2 h2 hash
        rw2 f2 w2).1.blocks
      = (db.recordBlock now1 c1 h1 hash rw1 f1 w1).1.blocks ∧
    ((db.recordBlock now1 c1 h1 hash rw1 f1 w1).1.blocks.filter
        (fun b => decide (b.blockHash = hash))).map BlockRow.rowid
      = [(db.recordBlock now1 c1 h1 hash rw1 f1 w1).2] := by
  have hnot : ¬ db.blocks.any (fun b => decide (b.blockHash = hash)) = true := by
    rw [hfresh]
    exact Bool.false_ne_true
  have hfil : db.blocks.filter (fun b => decide (b.blockHash = hash)) = [] := by
    rw [List.filter_eq_nil_iff]
    intro b hb
    have := List.any_eq_false.1 hfresh b hb
    simpa using this
  have hr1 : db.recordBlock now1 c1 h1 hash rw1 f1 w1
      = ({ db with
            blocks := db.blocks ++
              [⟨db.nextBlockRowid, c1, h1, hash, rw1, f1, w1, now1, false⟩],
            nextBlockRowid := db.nextBlockRowid + 1,
            lastInsertRowid := db.nextBlockRowid }, db.nextBlockRowid) := by
    rw [Db.recordBlock, if_neg hnot]
  rw [hr1]
  constructor
  · rw [Db.recordBlock, if_pos ?hp]
    case hp =>
      rw [List.any_eq_true]
      exact ⟨_, List.mem_append_right _ (List.mem_singleton.2 rfl), by simp⟩
  · rw [List.filter_append, hfil, List.nil_append]
    simp

/-- C7 witness: a fresh hash recorded twice, at a concrete store. -/
theorem claim7_witness :
    ((Db.empty.recordBlock 0 Coin.xmr 5 "h" 10 "f" "w").1.recordBlock 1 Coin.xtm
        6 "h" 11 "f2" "w2").1.blocks
      = (Db.empty.recordBlock 0 Coin.xmr 5 "h" 10 "f" "w").1.blocks ∧
    ((Db.empty.recordBlock 0 Coin.xmr 5 "h" 10 "f" "w").1.blocks.filter
        (fun b => decide (b.blockHash = "h"))).map BlockRow.rowid
      = [(Db.empty.recordBlock 0 Coin.xmr 5 "h" 10 "f" "w").2] :=
  claim7_idempotent Db.empty 0 1 Coin.xmr Coin.xtm 5 6 "h" 10 11 "f" "f2" "w"
    "w2" (by decide)

/-! ### Claim C2: update_payment_status balance coupling -/

theorem payments_map_find (ps : List PaymentRow) (pid : String)
    (f : PaymentRow → PaymentRow) (hkey : ∀ p, (f p).id = p.id) :
    ((ps.map (fun p => if p.id = pid then f p else p)).find?
      (fun p => decide (p.id = pid)))
    = (ps.find? (fun p => decide (p.id = pid))).map f := by
  induction ps with
  | nil => rfl
  | cons hd t ih =>
    by_cases hk : hd.id = pid
    · have hpf : (decide ((f hd).id = pid)) = true := by simp [hkey hd, hk]
      have hp : (decide (hd.id = pid)) = true := by simp [hk]
      simp only [List.map_cons, if_pos hk, List.find?_cons, hpf, hp]
      rfl
    · have hp : (decide (hd.id = pid)) = false := by simp [hk]
      simp only [List.map_cons, if_neg hk, List.find?_cons, hp, ih]

/-- One Confirmed call of update_payment_status, when the payment row is
found: the balances table gets the keyed binary64 settlement update, and
the payment row keeps its id, amount and addressing, now in status
Confirmed. -/
theorem updConfirmed_spec (db : Db) (now : ℤ) (pid : String) (p : PaymentRow)
    (hp : db.payments.find? (fun q => decide (q.id = pid)) = some p) :
    (db.updatePaymentStatus now pid PaymentStatus.confirmed none none).balances
      = db.balances.map (fun b =>
          if b.walletAddress = p.walletAddress ∧ b.coin = p.coin then
            { b with
                pendingBalance := realSub b.pendingBalance p.amount
                totalPaid := realAdd b.totalPaid p.amount
                lastPayment := some now }
          else b) ∧
    (db.updatePaymentStatus now pid PaymentStatus.confirmed none none).payments.find?
        (fun q => decide (q.id = pid))
      = some { p with
          status := PaymentStatus.confirmed
          txHash := Option.or none p.txHash
          confirmedAt := some now
          errorMessage := none } := by
  have hfind2 : (db.payments.map (fun q =>
      if q.id = pid then
        { q with
            status := PaymentStatus.confirmed
            txHash := Option.or none q.txHash
            confirmedAt := some now
            errorMessage := none }
      else q)).find? (fun q => decide (q.id = pid))
      = some { p with
          status := PaymentStatus.confirmed
          txHash := Option.or none p.txHash
          confirmedAt := some now
          errorMessage := none } := by
    rw [payments_map_find db.payments pid
      (fun q =>
        { q with
            status := PaymentStatus.confirmed
            txHash := Option.or none q.txHash
            confirmedAt := some now
            errorMessage := none })
      (fun q => rfl), hp]
    rfl
  simp only [Db.updatePaymentStatus, reduceIte]
  rw [hfind2]
  exact ⟨rfl, hfind2⟩

/-- One Confirmed call, balances view: with the payment row found and its
addressing and amount named, the balances table gets the keyed binary64
settlement update. -/
theorem updConfirmed_balances (db : Db) (now : ℤ) (pid : String)
    (q : PaymentRow) (w : String) (c : Coin) (a : ℚ)
    (hq : db.payments.find? (fun r => decide (r.id = pid)) = some q)
    (hw : q.walletAddress = w) (hc : q.coin = c) (ha : q.amount = a) :
    (db.updatePaymentStatus now pid PaymentStatus.confirmed none none).balances
      = db.balances.map (fun b =>
          if b.walletAddress = w ∧ b.coin = c then
            { b with
                pendingBalance := realSub b.pendingBalance a
                totalPaid := realAdd b.totalPaid a
                lastPayment := some now }
          else b) := by
  have h := (updConfirmed_spec db now pid q hq).1
  rw [h]
  simp only [hw, hc, ha]

unseal Rat.add Rat.sub in
/-- C2 counterexample: a payment of 30 against a pending balance of 100,
confirmed twice through update_payment_status, reduces pending twice
(to 40), not at most once (70): the store does not enforce the
at-most-once part of the claim. -/
theorem claim2_counterexample :
    (((((Db.empty.addPendingBalance Coin.xmr "a" 100).createPayment 5 "p1"
        Coin.xmr "a" 30).1.updatePaymentStatus 6 "p1" PaymentStatus.confirmed
        none none).updatePaymentStatus 7 "p1" PaymentStatus.confirmed none
        none).getMinerBalance Coin.xmr "a").map BalanceRow.pendingBalance
      = some 40 ∧ (40 : ℚ) ≠ 100 - 30 := by
  constructor
  · decide
  · decide

/-- C2 amended: update_payment_status touches the balances exactly when
the new status is Confirmed — any other status leaves every balance row
unchanged — and a Confirmed call decrements pending by the payment amount
and increments total_paid by it (exactly, for binary64-representable
values) and stamps last_payment, in the same write; but the decrement
happens on EVERY Confirmed call: the store does not enforce at-most-once
(a second Confirmed call on the same payment decrements again), that
guarantee holds only because the engine polls only pending/processing
payments. -/
theorem claim2_confirm_coupling (db : Db) (now now2 : ℤ) (pid : String)
    (p : PaymentRow) (b : BalanceRow)
    (hp : db.payments.find? (fun q => decide (q.id = pid)) = some p)
    (hb : db.getMinerBalance p.coin p.walletAddress = some b)
    (hrep : roundF64 b.pendingBalance = b.pendingBalance)
    (hreptp : roundF64 b.totalPaid = b.totalPaid)
    (hrea : roundF64 p.amount = p.amount)
    (hsub : roundF64 (b.pendingBalance - p.amount) = b.pendingBalance - p.amount)
    (hadd : roundF64 (b.totalPaid + p.amount) = b.totalPaid + p.amount)
    (hsub2 : roundF64 (b.pendingBalance - p.amount - p.amount)
      = b.pendingBalance - p.amount - p.amount) :
    (∀ st tx err, st ≠ PaymentStatus.confirmed →
      (db.updatePaymentStatus now pid st tx err).balances = db.balances) ∧
    ((db.updatePaymentStatus now pid PaymentStatus.confirmed none none).getMinerBalance
        p.coin p.walletAddress
      = some { b with
          pendingBalance := b.pendingBalance - p.amount
          totalPaid := b.totalPaid + p.amount
          lastPayment := some now }) ∧
    ((((db.updatePaymentStatus now pid PaymentStatus.confirmed none
        none).updatePaymentStatus now2 pid PaymentStatus.confirmed none
        none).getMinerBalance p.coin p.walletAddress).map
      BalanceRow.pendingBalance
      = some (b.pendingBalance - (p.amount + p.amount))) := by
  rw [Db.getMinerBalance] at hb
  refine ⟨?_, ?_, ?_⟩
  · intro st tx err hst
    simp only [Db.updatePaymentStatus]
    rw [if_neg hst]
  · rw [Db.getMinerBalance,
      updConfirmed_balances db now pid p p.walletAddress p.coin p.amount hp rfl
        rfl rfl,
      balances_map_find db.balances p.walletAddress p.coin
        (fun b => { b with
          pendingBalance := realSub b.pendingBalance p.amount
          totalPaid := realAdd b.totalPaid p.amount
          lastPayment := some now })
        (fun b => ⟨rfl, rfl⟩), hb]
    rw [Option.map_some']
    rw [realSub, realAdd, hrep, hreptp, hrea, hsub, hadd]
  · have hp2 := (updConfirmed_spec db now pid p hp).2
    rw [Db.getMinerBalance,
      updConfirmed_balances _ now2 pid _ p.walletAddress p.coin p.amount hp2 rfl
        rfl rfl,
      balances_map_find _ p.walletAddress p.coin
        (fun b => { b with
          pendingBalance := realSub b.pendingBalance p.amount
          totalPaid := realAdd b.totalPaid p.amount
          lastPayment := some now2 })
        (fun b => ⟨rfl, rfl⟩),
      updConfirmed_balances db now pid p p.walletAddress p.coin p.amount hp rfl
        rfl rfl,
      balances_map_find db.balances p.walletAddress p.coin
        (fun b => { b with
          pendingBalance := realSub b.pendingBalance p.amount
          totalPaid := realAdd b.totalPaid p.amount
          lastPayment := some now })
        (fun b => ⟨rfl, rfl⟩), hb]
    show some (realSub (realSub b.pendingBalance p.amount) p.amount) = _
    rw [realSub, realSub, hrep, hrea, hsub, hsub, hsub2]
    congr 1
    ring

unseal Rat.add Rat.sub in
/-- C2 witness: a concrete store with one payment and one balance row,
all values binary64-exact. -/
theorem claim2_witness :
    (∀ st tx err, st ≠ PaymentStatus.confirmed →
      (((Db.empty.addPendingBalance Coin.xmr "a" 100).createPayment 5 "p1"
        Coin.xmr "a" 30).1.updatePaymentStatus 6 "p1" st tx err).balances
        = ((Db.empty.addPendingBalance Coin.xmr "a" 100).createPayment 5 "p1"
        Coin.xmr "a" 30).1.balances) ∧
    ((((Db.empty.addPendingBalance Coin.xmr "a" 100).createPayment 5 "p1"
        Coin.xmr "a" 30).1.updatePaymentStatus 6 "p1" PaymentStatus.confirmed
        none none).getMinerBalance Coin.xmr "a"
      = some ⟨"a", Coin.xmr, (100 : ℚ) - 30, (0 : ℚ) + 30, 0, none, some 6⟩) ∧
    (((((Db.empty.addPendingBalance Coin.xmr "a" 100).createPayment 5 "p1"
        Coin.xmr "a" 30).1.updatePaymentStatus 6 "p1" PaymentStatus.confirmed
        none none).updatePaymentStatus 7 "p1" PaymentStatus.confirmed none
        none).getMinerBalance Coin.xmr "a").map BalanceRow.pendingBalance
      = some ((100 : ℚ) - (30 + 30)) := by
  have h := claim2_confirm_coupling
    ((Db.empty.addPendingBalance Coin.xmr "a" 100).createPayment 5 "p1" Coin.xmr
      "a" 30).1 6 7 "p1"
    ⟨"p1", Coin.xmr, "a", 30, none, PaymentStatus.pending, 5, none, none⟩
    ⟨"a", Coin.xmr, 100, 0, 0, none, none⟩
    (by decide) (by decide) (by decide) (by decide) (by decide) (by decide)
    (by decide) (by decide)
  exact h

/-! ### Claim C5: confirmation threshold -/

unseal Rat.add Rat.sub in
/-- C5 counterexample: at the required 10 confirmations a Processing
payment of 0.1 against a pending balance of 0.3 is marked Confirmed, but
the pending balance decreases through binary64 arithmetic, not by exactly
the payment amount: the stored value is 0.19999999999999998...
(7205759403792793 / 2^55), not 0.3 - 0.1. -/
theorem claim5_counterexample :
    ((moneroConfirmPayments
        ((((Db.empty.addPendingBalance Coin.xmr "a" (mkRat 3 10)).createPayment
          5 "p1" Coin.xmr "a" (mkRat 1 10)).1).updatePaymentStatus 6 "p1"
          PaymentStatus.processing (some "t") none)
        7 (fun _ => MoneroRpcReply.ok (some 10))).getMinerBalance Coin.xmr
        "a").map BalanceRow.pendingBalance
      ≠ some (mkRat 3 10 - mkRat 1 10) ∧
    ((moneroConfirmPayments
        ((((Db.empty.addPendingBalance Coin.xmr "a" (mkRat 3 10)).createPayment
          5 "p1" Coin.xmr "a" (mkRat 1 10)).1).updatePaymentStatus 6 "p1"
          PaymentStatus.processing (some "t") none)
        7 (fun _ => MoneroRpcReply.ok (some 10))).getMinerBalance Coin.xmr
        "a").map BalanceRow.pendingBalance
      = some (Rat.divInt 7205759403792793 36028797018963968) := by
  constructor
  · decide
  · decide

/-- C5 amended: with the monero wallet, a polled Processing payment is
marked Confirmed if and only if the reported confirmation count reaches
required_confirmations (10); below the threshold nothing in the store
changes, at or above it the payment becomes Confirmed and the pending
balance decreases by the payment amount computed in binary64 — exactly
the amount whenever the stored pending and amount are
binary64-representable with representable difference. -/
theorem claim5_confirmation_threshold (db : Db) (now : ℤ)
    (replies : String → MoneroRpcReply) (p : PaymentRow) (tx : String)
    (b : BalanceRow) (confs : ℕ)
    (hsnap : db.getPendingPayments Coin.xmr = [p])
    (htx : p.txHash = some tx)
    (hreply : replies tx = MoneroRpcReply.ok (some confs))
    (hfind : db.payments.find? (fun q => decide (q.id = p.id)) = some p)
    (hb : db.getMinerBalance p.coin p.walletAddress = some b)
    (hrep : roundF64 b.pendingBalance = b.pendingBalance)
    (hrea : roundF64 p.amount = p.amount)
    (hsub : roundF64 (b.pendingBalance - p.amount)
      = b.pendingBalance - p.amount) :
    (confs < moneroRequiredConfirmations →
      moneroConfirmPayments db now replies = db) ∧
    (moneroRequiredConfirmations ≤ confs →
      ((moneroConfirmPayments db now replies).payments.find?
          (fun q => decide (q.id = p.id))).map PaymentRow.status
        = some PaymentStatus.confirmed ∧
      ((moneroConfirmPayments db now replies).getMinerBalance p.coin
          p.walletAddress).map BalanceRow.pendingBalance
        = some (b.pendingBalance - p.amount)) := by
  have hrun : moneroConfirmPayments db now replies
      = (match moneroGetTxStatus (replies tx) with
        | some TxStatus.confirmed =>
          db.updatePaymentStatus now p.id PaymentStatus.confirmed none none
        | some (TxStatus.failed reason) =>
          db.updatePaymentStatus now p.id PaymentStatus.failed none (some reason)
        | _ => db) := by
    rw [moneroConfirmPayments, confirmPayments, hsnap, List.foldl_cons,
      List.foldl_nil, htx]
  rw [hreply] at hrun
  rw [moneroGetTxStatus] at hrun
  simp only [Option.getD_some] at hrun
  constructor
  · intro hlt
    rw [hrun, if_neg (by omega : ¬ moneroRequiredConfirmations ≤ confs)]
    rcases Nat.eq_zero_or_pos confs with hz | hpos
    · rw [if_neg (by omega : ¬ 0 < confs)]
    · rw [if_pos hpos]
  · intro hge
    rw [hrun, if_pos hge]
    constructor
    · rw [(updConfirmed_spec db now p.id p hfind).2]
      rfl
    · rw [Db.getMinerBalance] at hb
      rw [Db.getMinerBalance,
        updConfirmed_balances db now p.id p p.walletAddress p.coin p.amount
          hfind rfl rfl rfl,
        balances_map_find db.balances p.walletAddress p.coin
          (fun b => { b with
            pendingBalance := realSub b.pendingBalance p.amount
            totalPaid := realAdd b.totalPaid p.amount
            lastPayment := some now })
          (fun b => ⟨rfl, rfl⟩), hb]
      rw [Option.map_some', Option.map_some']
      show some (realSub b.pendingBalance p.amount) = _
      rw [realSub, hrep, hrea, hsub]

unseal Rat.add Rat.sub in
/-- C5 witness: 2 of 10 confirmations leave the store untouched; at 10 the
payment is Confirmed and a representable pending of 100 drops by exactly
the payment amount 30. -/
theorem claim5_witness :
    (moneroConfirmPayments
        ((((Db.empty.addPendingBalance Coin.xmr "a" 100).createPayment 5 "p1"
          Coin.xmr "a" 30).1).updatePaymentStatus 6 "p1"
          PaymentStatus.processing (some "t") none)
        7 (fun _ => MoneroRpcReply.ok (some 2))
      = (((Db.empty.addPendingBalance Coin.xmr "a" 100).createPayment 5 "p1"
          Coin.xmr "a" 30).1).updatePaymentStatus 6 "p1"
          PaymentStatus.processing (some "t") none) ∧
    (((moneroConfirmPayments
        ((((Db.empty.addPendingBalance Coin.xmr "a" 100).createPayment 5 "p1"
          Coin.xmr "a" 30).1).updatePaymentStatus 6 "p1"
          PaymentStatus.processing (some "t") none)
        7 (fun _ => MoneroRpcReply.ok (some 10))).payments.find?
        (fun q => decide (q.id = "p1"))).map PaymentRow.status
      = some PaymentStatus.confirmed ∧
    ((moneroConfirmPayments
        ((((Db.empty.addPendingBalance Coin.xmr "a" 100).createPayment 5 "p1"
          Coin.xmr "a" 30).1).updatePaymentStatus 6 "p1"
          PaymentStatus.processing (some "t") none)
        7 (fun _ => MoneroRpcReply.ok (some 10))).getMinerBalance Coin.xmr
        "a").map BalanceRow.pendingBalance = some ((100 : ℚ) - 30)) := by
  constructor
  · exact (claim5_confirmation_threshold _ 7 _
      ⟨"p1", Coin.xmr, "a", 30, some "t", PaymentStatus.processing, 5, none,
        none⟩ "t" ⟨"a", Coin.xmr, 100, 0, 0, none, none⟩ 2
      (by decide) (by decide) (by decide) (by decide) (by decide) (by decide)
      (by decide) (by decide)).1 (by decide)
  · exact (claim5_confirmation_threshold _ 7 _
      ⟨"p1", Coin.xmr, "a", 30, some "t", PaymentStatus.processing, 5, none,
        none⟩ "t" ⟨"a", Coin.xmr, 100, 0, 0, none, none⟩ 10
      (by decide) (by decide) (by decide) (by decide) (by decide) (by decide)
      (by decide) (by decide)).2 (by decide)

/-! ### Claims C9 and C10: share ingestion -/

/-- The rows that a run of record_share calls appends for a fetched batch:
the i-th row carries the i-th clock tick as its timestamp and the reported
fields of the i-th share — except its reported timestamp, which is
discarded. -/
def shareRowsOf (startRowid : ℤ) (coin : Coin) (clock : ℕ → ℤ) :
    List ShareInfo → List ShareRow
  | [] => []
  | sh :: rest =>
    ⟨startRowid, coin, sh.walletAddress, sh.workerName, sh.difficulty,
      clock 0, sh.blockHeight, sh.isBlock⟩
      :: shareRowsOf (startRowid + 1) coin (fun i => clock (i + 1)) rest

/-- The share count stored on a balance row (0 when the row is absent). -/
def balShares (db : Db) (coin : Coin) (a : String) : ℤ :=
  match db.getMinerBalance coin a with
  | some b => b.totalShares
  | none => 0

theorem balances_map_find_ne (bs : List BalanceRow) (addr : String) (c : Coin)
    (f : BalanceRow → BalanceRow)
    (hkey : ∀ b, (f b).walletAddress = b.walletAddress ∧ (f b).coin = b.coin)
    (a : String) (c2 : Coin) (hne : ¬(a = addr ∧ c2 = c)) :
    ((bs.map (fun b => if b.walletAddress = addr ∧ b.coin = c then f b else b)).find?
      (fun b => decide (b.coin = c2 ∧ b.walletAddress = a)))
    = bs.find? (fun b => decide (b.coin = c2 ∧ b.walletAddress = a)) := by
  induction bs with
  | nil => rfl
  | cons hd t ih =>
    by_cases hk : hd.walletAddress = addr ∧ hd.coin = c
    · have hpf : (decide ((f hd).coin = c2 ∧ (f hd).walletAddress = a)) = false := by
        rcases hkey hd with ⟨hw, hc⟩
        simp only [hw, hc, decide_eq_false_iff_not]
        intro hcontra
        exact hne ⟨hk.1 ▸ hcontra.2.symm ▸ rfl, hk.2 ▸ hcontra.1.symm ▸ rfl⟩
      have hp : (decide (hd.coin = c2 ∧ hd.walletAddress = a)) = false := by
        simp only [decide_eq_false_iff_not]
        intro hcontra
        exact hne ⟨hk.1 ▸ hcontra.2.symm ▸ rfl, hk.2 ▸ hcontra.1.symm ▸ rfl⟩
      simp only [List.map_cons, if_pos hk, List.find?_cons, hpf, hp, ih]
    · have heq : (decide ((hd).coin = c2 ∧ (hd).walletAddress = a))
          = decide (hd.coin = c2 ∧ hd.walletAddress = a) := rfl
      simp only [List.map_cons, if_neg hk, List.find?_cons, ih]

theorem recordShare_shares (db : Db) (now : ℤ) (coin : Coin)
    (addr w : String) (d : ℚ) (h : Option ℤ) (ib : Bool) :
    (db.recordShare now coin addr w d h ib).1.shares
      = db.shares ++ [⟨db.nextShareRowid, coin, addr, w, d, now, h, ib⟩] ∧
    (db.recordShare now coin addr w d h ib).1.nextShareRowid
      = db.nextShareRowid + 1 := by
  rw [Db.recordShare]
  split_ifs <;> exact ⟨rfl, rfl⟩

theorem recordShare_balShares (db : Db) (now : ℤ) (coin : Coin)
    (addr w : String) (d : ℚ) (h : Option ℤ) (ib : Bool) (a : String) :
    balShares (db.recordShare now coin addr w d h ib).1 coin a
      = balShares db coin a + (if a = addr then 1 else 0) := by
  rw [Db.recordShare]
  by_cases hex : db.balances.any
      (fun b => decide (b.walletAddress = addr ∧ b.coin = coin)) = true
  · rw [if_pos hex]
    by_cases ha : a = addr
    · subst ha
      have hsome : (db.balances.find?
          (fun b => decide (b.coin = coin ∧ b.walletAddress = a))).isSome = true := by
        rw [← balances_any_eq_isSome]
        exact hex
      rcases Option.isSome_iff_exists.1 hsome with ⟨b, hb⟩
      simp only [balShares, Db.getMinerBalance]
      rw [balances_map_find db.balances a coin
        (fun b => { b with totalShares := b.totalShares + 1, lastShare := some now })
        (fun b => ⟨rfl, rfl⟩), hb, Option.map_some']
      simp
    · simp only [balShares, Db.getMinerBalance]
      rw [balances_map_find_ne db.balances addr coin
        (fun b => { b with totalShares := b.totalShares + 1, lastShare := some now })
        (fun b => ⟨rfl, rfl⟩) a coin (by tauto), if_neg ha]
      omega
  · rw [if_neg hex]
    have hnone : db.balances.find?
        (fun b => decide (b.coin = coin ∧ b.walletAddress = addr)) = none := by
      rcases hfind : db.balances.find?
          (fun b => decide (b.coin = coin ∧ b.walletAddress = addr)) with _ | b
      · exact hfind
      · exfalso
        apply hex
        rw [balances_any_eq_isSome, hfind]
        rfl
    by_cases ha : a = addr
    · subst ha
      simp only [balShares, Db.getMinerBalance]
      rw [List.find?_append, hnone, Option.none_or,
        List.find?_cons_of_pos _ (by simp)]
      simp
    · simp only [balShares, Db.getMinerBalance]
      rw [List.find?_append,
        List.find?_cons_of_neg _
          (by simp only [decide_eq_true_eq]; rintro ⟨-, hw⟩; exact ha hw.symm)]
      cases db.balances.find? (fun b => decide (b.coin = coin ∧ b.walletAddress = a)) <;>
        simp [ha]

theorem recordShareFold_spec (coin : Coin) :
    ∀ (l : List ShareInfo) (db : Db) (clock : ℕ → ℤ),
    (recordShareFold coin db clock l).shares
        = db.shares ++ shareRowsOf db.nextShareRowid coin clock l ∧
    (recordShareFold coin db clock l).nextShareRowid
        = db.nextShareRowid + l.length := by
  intro l
  induction l with
  | nil =>
    intro db clock
    exact ⟨(List.append_nil _).symm, by simp [recordShareFold, shareRowsOf]⟩
  | cons sh rest ih =>
    intro db clock
    obtain ⟨h1, h2⟩ := recordShare_shares db (clock 0) coin sh.walletAddress
      sh.workerName sh.difficulty sh.blockHeight sh.isBlock
    obtain ⟨ih1, ih2⟩ := ih (db.recordShare (clock 0) coin sh.walletAddress
      sh.workerName sh.difficulty sh.blockHeight sh.isBlock).1 (fun i => clock (i + 1))
    constructor
    · rw [recordShareFold, ih1, h1, h2, shareRowsOf]
      simp
    · rw [recordShareFold, ih2, h2, List.length_cons]
      push_cast
      ring

theorem recordShareFold_balShares (coin : Coin) (a : String) :
    ∀ (l : List ShareInfo) (db : Db) (clock : ℕ → ℤ),
    balShares (recordShareFold coin db clock l) coin a
      = balShares db coin a
        + ((l.filter (fun sh => decide (sh.walletAddress = a))).length : ℤ) := by
  intro l
  induction l with
  | nil => intro db clock; simp [recordShareFold]
  | cons sh rest ih =>
    intro db clock
    rw [recordShareFold, ih, recordShare_balShares, List.filter_cons]
    by_cases hw : sh.walletAddress = a
    · rw [if_pos hw.symm, if_pos (show (decide (sh.walletAddress = a)) = true by
        simp [hw]), List.length_cons]
      push_cast
      ring
    · rw [if_neg (fun hc => hw hc.symm), if_neg (show ¬(decide (sh.walletAddress = a)) = true by
        simp [hw])]
      ring

theorem shareRowsOf_inRange (coin : Coin) (t1 t2 : ℤ) :
    ∀ (l : List ShareInfo) (clock : ℕ → ℤ) (start : ℤ),
    ((shareRowsOf start coin clock l).filter (fun sh => decide (sh.coin = coin ∧
        t1 ≤ sh.timestamp ∧ sh.timestamp ≤ t2))).length
      = ((List.range l.length).filter
          (fun i => decide (t1 ≤ clock i ∧ clock i ≤ t2))).length := by
  intro l
  induction l with
  | nil => intro clock start; rfl
  | cons sh rest ih =>
    intro clock start
    rw [shareRowsOf, List.length_cons, List.range_succ_eq_map,
      ← List.countP_eq_length_filter, ← List.countP_eq_length_filter,
      List.countP_cons, List.countP_cons, List.countP_map]
    have hrow : (decide ((⟨start, coin, sh.walletAddress, sh.workerName,
        sh.difficulty, clock 0, sh.blockHeight, sh.isBlock⟩ : ShareRow).coin = coin ∧
        t1 ≤ (⟨start, coin, sh.walletAddress, sh.workerName, sh.difficulty,
          clock 0, sh.blockHeight, sh.isBlock⟩ : ShareRow).timestamp ∧
        (⟨start, coin, sh.walletAddress, sh.workerName, sh.difficulty,
          clock 0, sh.blockHeight, sh.isBlock⟩ : ShareRow).timestamp ≤ t2))
      = decide (t1 ≤ clock 0 ∧ clock 0 ≤ t2) := by simp
    rw [hrow]
    have ihr := ih (fun i => clock (i + 1)) (start + 1)
    rw [← List.countP_eq_length_filter, ← List.countP_eq_length_filter] at ihr
    simp only [Function.comp_def, Nat.succ_eq_add_one]
    rw [ihr]

/-- C9: share ingestion stamps rows with the store clock (`Utc::now()` in
record_share), not the timestamp reported by the pool: the appended rows
are `shareRowsOf`, whose timestamps are the successive clock ticks and
which never reads the reported `ShareInfo.timestamp`; the reported
timestamps are used only to advance the sync watermark to their maximum;
and the range queries backing reward distribution count by the stored
(ingestion) timestamp. -/
theorem claim9_ingestion_time (db : Db) (coin : Coin) (since : ℤ)
    (shares : List ShareInfo) (clock : ℕ → ℤ) (t1 t2 : ℤ) :
    (syncShares db coin since shares clock none).1.shares
      = db.shares ++ shareRowsOf db.nextShareRowid coin clock shares ∧
    (syncShares db coin since shares clock none).2
      = shares.foldl (fun acc sh => max acc sh.timestamp) since ∧
    (syncShares db coin since shares clock none).1.getTotalSharesInRange coin t1 t2
      = db.getTotalSharesInRange coin t1 t2
        + (((List.range shares.length).filter
            (fun i => decide (t1 ≤ clock i ∧ clock i ≤ t2))).length : ℤ) := by
  obtain ⟨h1, _⟩ := recordShareFold_spec coin shares db clock
  refine ⟨h1, rfl, ?_⟩
  simp only [syncShares, Db.getTotalSharesInRange, h1, List.filter_append,
    List.length_append, shareRowsOf_inRange coin t1 t2 shares clock db.nextShareRowid]
  push_cast
  ring

/-- C10: sync_shares is not atomic with respect to its watermark: if the
n-th record_share call of a cycle fails, the first n shares stay recorded
but the in-memory watermark is not advanced, so the next cycle fetches the
same batch again and re-records every share — the first n rows are stored
twice and the per-miner share counts double-count them. -/
theorem claim10_sync_not_atomic (db : Db) (coin : Coin) (since : ℤ)
    (shares : List ShareInfo) (clock clock2 : ℕ → ℤ) (n : ℕ)
    (hn : n < shares.length) :
    (syncShares db coin since shares clock (some n)).2 = since ∧
    (syncShares db coin since shares clock (some n)).1.shares
      = db.shares ++ shareRowsOf db.nextShareRowid coin clock (shares.take n) ∧
    (syncShares (syncShares db coin since shares clock (some n)).1 coin
        (syncShares db coin since shares clock (some n)).2 shares clock2
        none).1.shares
      = db.shares ++ shareRowsOf db.nextShareRowid coin clock (shares.take n)
        ++ shareRowsOf (db.nextShareRowid + n) coin clock2 shares ∧
    ∀ a : String,
      balShares (syncShares (syncShares db coin since shares clock (some n)).1 coin
          (syncShares db coin since shares clock (some n)).2 shares clock2
          none).1 coin a
        = balShares db coin a
          + (((shares.take n).filter
              (fun sh => decide (sh.walletAddress = a))).length : ℤ)
          + ((shares.filter (fun sh => decide (sh.walletAddress = a))).length : ℤ) := by
  have hfail : syncShares db coin since shares clock (some n)
      = (recordShareFold coin db clock (shares.take n), since) := by
    rw [syncShares, if_pos hn]
  obtain ⟨h1, h2⟩ := recordShareFold_spec coin (shares.take n) db clock
  have hlen : ((shares.take n).length : ℤ) = (n : ℤ) := by
    rw [List.length_take]
    omega
  obtain ⟨h3, _⟩ := recordShareFold_spec coin shares
    (recordShareFold coin db clock (shares.take n)) clock2
  refine ⟨by rw [hfail], by rw [hfail]; exact h1, ?_, ?_⟩
  · rw [hfail]
    show (recordShareFold coin (recordShareFold coin db clock (shares.take n))
        clock2 shares).shares = _
    rw [h3, h1, h2, hlen, List.append_assoc]
  · intro a
    rw [hfail]
    show balShares (recordShareFold coin (recordShareFold coin db clock
        (shares.take n)) clock2 shares) coin a = _
    rw [recordShareFold_balShares coin a shares _ clock2,
      recordShareFold_balShares coin a (shares.take n) db clock]

/-- Concrete instance of the C10 theorem: two shares, a failure at index
1, a rerun of the same batch. -/
theorem claim10_witness :
    (1 < ([⟨"A", "w", 1, none, false, 50⟩, ⟨"B", "w", 1, none, false, 60⟩] :
        List ShareInfo).length) ∧
    ((syncShares Db.empty Coin.xmr 0
        [⟨"A", "w", 1, none, false, 50⟩, ⟨"B", "w", 1, none, false, 60⟩]
        (fun _ => 5) (some 1)).2 = 0 ∧
      (syncShares Db.empty Coin.xmr 0
          [⟨"A", "w", 1, none, false, 50⟩, ⟨"B", "w", 1, none, false, 60⟩]
          (fun _ => 5) (some 1)).1.shares
        = Db.empty.shares ++ shareRowsOf Db.empty.nextShareRowid Coin.xmr
            (fun _ => 5) ([⟨"A", "w", 1, none, false, 50⟩,
              ⟨"B", "w", 1, none, false, 60⟩].take 1) ∧
      (syncShares (syncShares Db.empty Coin.xmr 0
          [⟨"A", "w", 1, none, false, 50⟩, ⟨"B", "w", 1, none, false, 60⟩]
          (fun _ => 5) (some 1)).1 Coin.xmr
        (syncShares Db.empty Coin.xmr 0
          [⟨"A", "w", 1, none, false, 50⟩, ⟨"B", "w", 1, none, false, 60⟩]
          (fun _ => 5) (some 1)).2
        [⟨"A", "w", 1, none, false, 50⟩, ⟨"B", "w", 1, none, false, 60⟩]
        (fun _ => 9) none).1.shares
        = Db.empty.shares ++ shareRowsOf Db.empty.nextShareRowid Coin.xmr
            (fun _ => 5) ([⟨"A", "w", 1, none, false, 50⟩,
              ⟨"B", "w", 1, none, false, 60⟩].take 1)
          ++ shareRowsOf (Db.empty.nextShareRowid + 1) Coin.xmr
            (fun _ => 9) [⟨"A", "w", 1, none, false, 50⟩,
              ⟨"B", "w", 1, none, false, 60⟩] ∧
      balShares (syncShares (syncShares Db.empty Coin.xmr 0
          [⟨"A", "w", 1, none, false, 50⟩, ⟨"B", "w", 1, none, false, 60⟩]
          (fun _ => 5) (some 1)).1 Coin.xmr
        (syncShares Db.empty Coin.xmr 0
          [⟨"A", "w", 1, none, false, 50⟩, ⟨"B", "w", 1, none, false, 60⟩]
          (fun _ => 5) (some 1)).2
        [⟨"A", "w", 1, none, false, 50⟩, ⟨"B", "w", 1, none, false, 60⟩]
        (fun _ => 9) none).1 Coin.xmr "A"
        = balShares Db.empty Coin.xmr "A"
          + ((([⟨"A", "w", 1, none, false, 50⟩,
              ⟨"B", "w", 1, none, false, 60⟩] : List ShareInfo).take 1).filter
              (fun sh => decide (sh.walletAddress = "A"))).length
          + (([⟨"A", "w", 1, none, false, 50⟩,
              ⟨"B", "w", 1, none, false, 60⟩] : List ShareInfo).filter
              (fun sh => decide (sh.walletAddress = "A"))).length) := by
  refine ⟨by decide, ?_⟩
  obtain ⟨w1, w2, w3, w4⟩ := claim10_sync_not_atomic Db.empty Coin.xmr 0
    [⟨"A", "w", 1, none, false, 50⟩, ⟨"B", "w", 1, none, false, 60⟩]
    (fun _ => 5) (fun _ => 9) 1 (by decide)
  exact ⟨w1, w2, w3, w4 "A"⟩

/-! ### Claim C1: reward conservation -/

unseal Rat.add in
/-- C1 counterexample: reward 1 split over six one-share miners.  Each
per-miner credit is Decimal 1 * (1/6), and 1/6 has no exact decimal
representation, so rust_decimal rounds it up at its maximum scale 28;
the six credits sum to 1.0000000000000000000000000002 > 1, the remainder
reward - distributed is negative and therefore not credited, and the sum
of the issued credits differs from the block reward. -/
theorem claim1_counterexample :
    (distributeBlockCredits
        ⟨[⟨1, Coin.xmr, "A", "w", 1, 100, none, false⟩,
          ⟨2, Coin.xmr, "B", "w", 1, 100, none, false⟩,
          ⟨3, Coin.xmr, "C", "w", 1, 100, none, false⟩,
          ⟨4, Coin.xmr, "D", "w", 1, 100, none, false⟩,
          ⟨5, Coin.xmr, "E", "w", 1, 100, none, false⟩,
          ⟨6, Coin.xmr, "G", "w", 1, 100, none, false⟩],
          [], [], [], 7, 1, 1, 1, 0⟩
        ⟨1, Coin.xmr, 1, "h", 1, "F0", "w", 100, false⟩
        ⟨1, 0⟩).foldl (fun acc c => acc + c.2.toRat) 0
      ≠ Dec.toRat ⟨1, 0⟩ := by decide

/-- C1 (amended): conservation of the block reward holds exactly in the
zero-share case (the finder is credited the full reward), and otherwise
holds only under side conditions the code does not guarantee: the
Decimal running total must accumulate the per-miner credits without
rounding, and either the remainder reward - distributed is strictly
positive and the Decimal subtraction computing it is exact, or the
remainder is not strictly positive and the distributed total already
equals the reward.  Outside these conditions the remainder credit is
skipped (it is only issued when strictly positive) and the issued
credits need not sum to the reward. -/
theorem claim1_conservation (db : Db) (blk : BlockRow) (reward : Dec)
    (h : db.getTotalSharesInRange blk.coin (blk.timestamp - lookbackSecs)
          blk.timestamp = 0
      ∨ ((distributedTotal db blk reward).toRat
            = (perCredits db blk reward).foldl (fun acc c => acc + c.2.toRat) 0
          ∧ ((decLt decZero (decSub reward (distributedTotal db blk reward)) = true
              ∧ (decSub reward (distributedTotal db blk reward)).toRat
                  = reward.toRat - (distributedTotal db blk reward).toRat)
            ∨ (¬ decLt decZero (decSub reward (distributedTotal db blk reward)) = true
              ∧ (distributedTotal db blk reward).toRat = reward.toRat)))) :
    (distributeBlockCredits db blk reward).foldl
        (fun acc c => acc + c.2.toRat) 0 = reward.toRat := by
  by_cases htot : db.getTotalSharesInRange blk.coin
      (blk.timestamp - lookbackSecs) blk.timestamp = 0
  · rw [distributeBlockCredits, if_pos htot]
    show 0 + reward.toRat = reward.toRat
    ring
  · obtain ⟨hD, hcase⟩ := h.resolve_left htot
    simp only [distributeBlockCredits]
    rw [if_neg htot]
    rcases hcase with ⟨hlt, hexact⟩ | ⟨hnlt, heq⟩
    · rw [if_pos hlt, List.foldl_append]
      show (perCredits db blk reward).foldl (fun acc c => acc + c.2.toRat) 0
          + (decSub reward (distributedTotal db blk reward)).toRat = reward.toRat
      rw [hexact, ← hD]
      ring
    · rw [if_neg hnlt, ← hD]
      exact heq

/-- Concrete instance of the C1 theorem: the zero-share scenario, where
the finder wallet is credited exactly the full reward of 100. -/
theorem claim1_witness :
    Db.empty.getTotalSharesInRange Coin.xmr (100 - lookbackSecs) 100 = 0 ∧
    (distributeBlockCredits Db.empty
        ⟨1, Coin.xmr, 1, "h", 100, "F", "w", 100, false⟩
        (decOfNat 100)).foldl (fun acc c => acc + c.2.toRat) 0
      = (decOfNat 100).toRat :=
  ⟨by decide, claim1_conservation Db.empty
    ⟨1, Coin.xmr, 1, "h", 100, "F", "w", 100, false⟩
    (decOfNat 100) (Or.inl (by decide))⟩

/-! ### Claim C4: balance invariants under store operations -/

/-- The store operations named by the balance-invariant property. -/
inductive StoreOp
  | recordShareOp (now : ℤ) (coin : Coin) (walletAddress workerName : String)
      (difficulty : ℚ) (blockHeight : Option ℤ) ( isBlock : Bool)
  | addPendingOp (coin : Coin) (walletAddress : String) (amount : ℚ)
  | createPaymentOp (now : ℤ) (id : String) (coin : Coin)
      (walletAddress : String) (amount : ℚ)
  | updateStatusOp (now : ℤ) (paymentId : String) (status : PaymentStatus)
      (txHash errorMessage : Option String)
  | markDistributedOp (blockId : ℤ)

def runStoreOp (db : Db) : StoreOp → Db
  | StoreOp.recordShareOp now coin a w d h ib => (db.recordShare now coin a w d h ib).1
  | StoreOp.addPendingOp coin a amt => db.addPendingBalance coin a amt
  | StoreOp.createPaymentOp now id coin a amt => (db.createPayment now id coin a amt).1
  | StoreOp.updateStatusOp now pid st tx err => db.updatePaymentStatus now pid st tx err
  | StoreOp.markDistributedOp bid => db.markBlockDistributed bid

/-- The total_paid recorded for (address, coin), 0 when the row is absent. -/
def balTotalPaid (db : Db) (coin : Coin) (a : String) : ℚ :=
  match db.getMinerBalance coin a with
  | some b => b.totalPaid
  | none => 0

/-- Payment creation with a non-negative amount. -/
def opCreateNonneg : StoreOp → Bool
  | StoreOp.createPaymentOp _ _ _ _ amt => decide (0 ≤ amt)
  | _ => true

/-- The guard under which one store operation preserves non-negative
pending balances: credits must be non-negative, and a Confirmed status
update must settle at most the (binary64 image of the) pending amount of
the affected balance row. -/
def opPendingGuard (db : Db) : StoreOp → Bool
  | StoreOp.addPendingOp _ _ amount => decide (0 ≤ amount)
  | StoreOp.updateStatusOp _ pid status _ _ =>
      if status = PaymentStatus.confirmed then
        db.payments.all (fun p => !(decide (p.id = pid)) || db.balances.all (fun b =>
          !(decide (b.walletAddress = p.walletAddress ∧ b.coin = p.coin))
            || decide (roundF64 p.amount ≤ roundF64 b.pendingBalance)))
      else true
  | _ => true

/-- The per-step pending guard along a whole run. -/
def pendingGuardedRun (db : Db) : List StoreOp → Bool
  | [] => true
  | op :: rest => opPendingGuard db op && pendingGuardedRun (runStoreOp db op) rest

unseal Rat.add Rat.sub in
/-- C4 counterexample: credit 3, create a payment of 5 for the same
address, confirm it; the store subtracts through CAST AS REAL with no
guard, leaving pending_balance = -2 < 0. -/
theorem claim4_counterexample :
    ((([StoreOp.addPendingOp Coin.xmr "A" 3,
        StoreOp.createPaymentOp 0 "p1" Coin.xmr "A" 5,
        StoreOp.updateStatusOp 1 "p1" PaymentStatus.confirmed none none] :
          List StoreOp).foldl runStoreOp Db.empty).getMinerBalance Coin.xmr "A").map
      (fun b => decide (0 ≤ b.pendingBalance)) = some false := by decide

theorem realAdd_ge_left (tp amt : ℚ) (hrepr : roundF64 tp = tp)
    (hamt : 0 ≤ amt) : tp ≤ realAdd tp amt := by
  have h1 : 0 ≤ roundF64 amt := roundF64_nonneg hamt
  have h2 := roundF64_mono (le_add_of_nonneg_right h1 :
    roundF64 tp ≤ roundF64 tp + roundF64 amt)
  rw [roundF64_idem] at h2
  calc tp = roundF64 tp := hrepr.symm
    _ ≤ roundF64 (roundF64 tp + roundF64 amt) := h2
    _ = realAdd tp amt := rfl

theorem realAdd_nonneg (x y : ℚ) (hx : 0 ≤ x) (hy : 0 ≤ y) :
    0 ≤ realAdd x y := by
  rw [realAdd]
  exact roundF64_nonneg (add_nonneg (roundF64_nonneg hx) (roundF64_nonneg hy))

theorem realSub_nonneg (x y : ℚ) (h : roundF64 y ≤ roundF64 x) :
    0 ≤ realSub x y := by
  rw [realSub]
  exact roundF64_nonneg (sub_nonneg.2 h)

theorem keyed_map_totalPaid (bs : List BalanceRow) (addr : String) (c0 : Coin)
    (f : BalanceRow → BalanceRow)
    (hkey : ∀ b, (f b).walletAddress = b.walletAddress ∧ (f b).coin = b.coin)
    (hle : ∀ b, b ∈ bs → b.totalPaid ≤ (f b).totalPaid)
    (c : Coin) (a : String) :
    (match bs.find? (fun b => decide (b.coin = c ∧ b.walletAddress = a)) with
      | some b => b.totalPaid
      | none => 0)
    ≤ (match (bs.map (fun b =>
          if b.walletAddress = addr ∧ b.coin = c0 then f b else b)).find?
          (fun b => decide (b.coin = c ∧ b.walletAddress = a)) with
      | some b => b.totalPaid
      | none => 0) := by
  by_cases hk : a = addr ∧ c = c0
  · obtain ⟨ha, hc⟩ := hk
    subst ha
    subst hc
    rw [balances_map_find bs a c f hkey]
    cases hfind : bs.find? (fun b => decide (b.coin = c ∧ b.walletAddress = a)) with
    | none => simp
    | some b =>
      rw [Option.map_some']
      exact hle b (List.mem_of_find?_eq_some hfind)
  · rw [balances_map_find_ne bs addr c0 f hkey a c (by tauto)]

theorem append_totalPaid (bs : List BalanceRow) (fresh : BalanceRow)
    (hfresh : 0 ≤ fresh.totalPaid) (c : Coin) (a : String) :
    (match bs.find? (fun b => decide (b.coin = c ∧ b.walletAddress = a)) with
      | some b => b.totalPaid
      | none => 0)
    ≤ (match (bs ++ [fresh]).find?
          (fun b => decide (b.coin = c ∧ b.walletAddress = a)) with
      | some b => b.totalPaid
      | none => 0) := by
  rw [List.find?_append]
  cases hfind : bs.find? (fun b => decide (b.coin = c ∧ b.walletAddress = a)) with
  | some b => exact le_refl b.totalPaid
  | none =>
    rw [Option.none_or]
    cases hpred : decide (fresh.coin = c ∧ fresh.walletAddress = a) with
    | true => simp [List.find?, hpred, hfresh]
    | false => simp [List.find?, hpred]

theorem runStoreOp_totalPaid_step (db : Db) (op : StoreOp)
    (hrepr : ∀ b ∈ db.balances, roundF64 b.totalPaid = b.totalPaid)
    (hpay : ∀ p ∈ db.payments, 0 ≤ p.amount)
    (hop : opCreateNonneg op = true) :
    (∀ b ∈ (runStoreOp db op).balances, roundF64 b.totalPaid = b.totalPaid) ∧
    (∀ p ∈ (runStoreOp db op).payments, 0 ≤ p.amount) ∧
    (∀ c a, balTotalPaid db c a ≤ balTotalPaid (runStoreOp db op) c a) := by
  cases op with
  | recordShareOp now coin a0 w d h ib =>
    simp only [runStoreOp, Db.recordShare]
    by_cases hex : db.balances.any
        (fun b => decide (b.walletAddress = a0 ∧ b.coin = coin)) = true
    · rw [if_pos hex]
      refine ⟨?_, fun p hp => hpay p hp, ?_⟩
      · intro b hb
        obtain ⟨b0, hb0, rfl⟩ := List.mem_map.1 hb
        by_cases hk : b0.walletAddress = a0 ∧ b0.coin = coin
        · rw [if_pos hk]
          exact hrepr b0 hb0
        · rw [if_neg hk]
          exact hrepr b0 hb0
      · intro c a
        simp only [balTotalPaid, Db.getMinerBalance]
        exact keyed_map_totalPaid db.balances a0 coin
          (fun b => { b with totalShares := b.totalShares + 1, lastShare := some now })
          (fun b => ⟨rfl, rfl⟩) (fun b _ => le_refl b.totalPaid) c a
    · rw [if_neg hex]
      refine ⟨?_, fun p hp => hpay p hp, ?_⟩
      · intro b hb
        rcases List.mem_append.1 hb with hb1 | hb2
        · exact hrepr b hb1
        · obtain rfl := List.mem_singleton.1 hb2
          exact roundF64_zero
      · intro c a
        simp only [balTotalPaid, Db.getMinerBalance]
        exact append_totalPaid db.balances ⟨a0, coin, 0, 0, 1, some now, none⟩
          (le_refl 0) c a
  | addPendingOp coin a0 amt =>
    simp only [runStoreOp, Db.addPendingBalance]
    by_cases hex : db.balances.any
        (fun b => decide (b.walletAddress = a0 ∧ b.coin = coin)) = true
    · rw [if_pos hex]
      refine ⟨?_, fun p hp => hpay p hp, ?_⟩
      · intro b hb
        obtain ⟨b0, hb0, rfl⟩ := List.mem_map.1 hb
        by_cases hk : b0.walletAddress = a0 ∧ b0.coin = coin
        · rw [if_pos hk]
          exact hrepr b0 hb0
        · rw [if_neg hk]
          exact hrepr b0 hb0
      · intro c a
        simp only [balTotalPaid, Db.getMinerBalance]
        exact keyed_map_totalPaid db.balances a0 coin
          (fun b => { b with pendingBalance := realAdd b.pendingBalance amt })
          (fun b => ⟨rfl, rfl⟩) (fun b _ => le_refl b.totalPaid) c a
    · rw [if_neg hex]
      refine ⟨?_, fun p hp => hpay p hp, ?_⟩
      · intro b hb
        rcases List.mem_append.1 hb with hb1 | hb2
        · exact hrepr b hb1
        · obtain rfl := List.mem_singleton.1 hb2
          exact roundF64_zero
      · intro c a
        simp only [balTotalPaid, Db.getMinerBalance]
        exact append_totalPaid db.balances ⟨a0, coin, amt, 0, 0, none, none⟩
          (le_refl 0) c a
  | createPaymentOp now id coin a0 amt =>
    refine ⟨fun b hb => hrepr b hb, ?_, fun c a => le_refl _⟩
    intro p hp
    rcases List.mem_append.1 hp with hp1 | hp2
    · exact hpay p hp1
    · obtain rfl := List.mem_singleton.1 hp2
      exact of_decide_eq_true hop
  | updateStatusOp now pid st tx err =>
    simp only [runStoreOp, Db.updatePaymentStatus]
    by_cases hst : st = PaymentStatus.confirmed
    · rw [if_pos hst]
      split
      · refine ⟨fun b hb => hrepr b hb, ?_, fun c a => le_refl _⟩
        intro p hp
        obtain ⟨q, hq, rfl⟩ := List.mem_map.1 hp
        by_cases hid : q.id = pid
        · rw [if_pos hid]
          exact hpay q hq
        · rw [if_neg hid]
          exact hpay q hq
      · rename_i p heq
        have hpmem := List.mem_of_find?_eq_some heq
        obtain ⟨q, hq, hqe⟩ := List.mem_map.1 hpmem
        have hamt : 0 ≤ p.amount := by
          by_cases hid : q.id = pid
          · rw [← hqe, if_pos hid]
            exact hpay q hq
          · rw [← hqe, if_neg hid]
            exact hpay q hq
        refine ⟨?_, ?_, ?_⟩
        · intro b hb
          obtain ⟨b0, hb0, rfl⟩ := List.mem_map.1 hb
          by_cases hk : b0.walletAddress = p.walletAddress ∧ b0.coin = p.coin
          · rw [if_pos hk]
            show roundF64 (realAdd b0.totalPaid p.amount)
              = realAdd b0.totalPaid p.amount
            rw [realAdd]
            exact roundF64_idem _
          · rw [if_neg hk]
            exact hrepr b0 hb0
        · intro r hr
          obtain ⟨q2, hq2, rfl⟩ := List.mem_map.1 hr
          by_cases hid : q2.id = pid
          · rw [if_pos hid]
            exact hpay q2 hq2
          · rw [if_neg hid]
            exact hpay q2 hq2
        · intro c a
          simp only [balTotalPaid, Db.getMinerBalance]
          exact keyed_map_totalPaid db.balances p.walletAddress p.coin
            (fun b => { b with
                pendingBalance := realSub b.pendingBalance p.amount
                totalPaid := realAdd b.totalPaid p.amount
                lastPayment := some now })
            (fun b => ⟨rfl, rfl⟩)
            (fun b hbmem => realAdd_ge_left b.totalPaid p.amount (hrepr b hbmem) hamt)
            c a
    · rw [if_neg hst]
      refine ⟨fun b hb => hrepr b hb, ?_, fun c a => le_refl _⟩
      intro p hp
      obtain ⟨q, hq, rfl⟩ := List.mem_map.1 hp
      by_cases hid : q.id = pid
      · rw [if_pos hid]
        exact hpay q hq
      · rw [if_neg hid]
        exact hpay q hq
  | markDistributedOp bid =>
    exact ⟨fun b hb => hrepr b hb, fun p hp => hpay p hp, fun c a => le_refl _⟩

theorem runStoreOp_pending_step (db : Db) (op : StoreOp)
    (hpend : ∀ b ∈ db.balances, 0 ≤ b.pendingBalance)
    (hguard : opPendingGuard db op = true) :
    ∀ b ∈ (runStoreOp db op).balances, 0 ≤ b.pendingBalance := by
  cases op with
  | recordShareOp now coin a0 w d h ib =>
    simp only [runStoreOp, Db.recordShare]
    by_cases hex : db.balances.any
        (fun b => decide (b.walletAddress = a0 ∧ b.coin = coin)) = true
    · rw [if_pos hex]
      intro b hb
      obtain ⟨b0, hb0, rfl⟩ := List.mem_map.1 hb
      by_cases hk : b0.walletAddress = a0 ∧ b0.coin = coin
      · rw [if_pos hk]
        exact hpend b0 hb0
      · rw [if_neg hk]
        exact hpend b0 hb0
    · rw [if_neg hex]
      intro b hb
      rcases List.mem_append.1 hb with hb1 | hb2
      · exact hpend b hb1
      · obtain rfl := List.mem_singleton.1 hb2
        exact le_refl 0
  | addPendingOp coin a0 amt =>
    have hamt : 0 ≤ amt := of_decide_eq_true hguard
    simp only [runStoreOp, Db.addPendingBalance]
    by_cases hex : db.balances.any
        (fun b => decide (b.walletAddress = a0 ∧ b.coin = coin)) = true
    · rw [if_pos hex]
      intro b hb
      obtain ⟨b0, hb0, rfl⟩ := List.mem_map.1 hb
      by_cases hk : b0.walletAddress = a0 ∧ b0.coin = coin
      · rw [if_pos hk]
        exact realAdd_nonneg b0.pendingBalance amt (hpend b0 hb0) hamt
      · rw [if_neg hk]
        exact hpend b0 hb0
    · rw [if_neg hex]
      intro b hb
      rcases List.mem_append.1 hb with hb1 | hb2
      · exact hpend b hb1
      · obtain rfl := List.mem_singleton.1 hb2
        exact hamt
  | createPaymentOp now id coin a0 amt => exact fun b hb => hpend b hb
  | markDistributedOp bid => exact fun b hb => hpend b hb
  | updateStatusOp now pid st tx err =>
    simp only [runStoreOp, Db.updatePaymentStatus]
    by_cases hst : st = PaymentStatus.confirmed
    · rw [if_pos hst]
      split
      · exact fun b hb => hpend b hb
      · rename_i p heq
        have hpmem := List.mem_of_find?_eq_some heq
        have hfs := List.find?_some heq
        have hpid : p.id = pid := of_decide_eq_true hfs
        obtain ⟨q, hq, hqe⟩ := List.mem_map.1 hpmem
        have hqid : q.id = pid := by
          by_cases hid : q.id = pid
          · exact hid
          · rw [← hqe, if_neg hid] at hpid
            exact absurd hpid hid
        have hqw : p.walletAddress = q.walletAddress := by
          rw [← hqe, if_pos hqid]
        have hqc : p.coin = q.coin := by
          rw [← hqe, if_pos hqid]
        have hqa : p.amount = q.amount := by
          rw [← hqe, if_pos hqid]
        simp only [opPendingGuard, if_pos hst, List.all_eq_true] at hguard
        have hg := hguard q hq
        simp only [hqid, decide_True, Bool.not_true, Bool.false_or,
          List.all_eq_true] at hg
        intro b hb
        obtain ⟨b0, hb0, rfl⟩ := List.mem_map.1 hb
        by_cases hk : b0.walletAddress = p.walletAddress ∧ b0.coin = p.coin
        · rw [if_pos hk]
          have h3 := hg b0 hb0
          simp only [hk.1.trans hqw, hk.2.trans hqc, and_self, decide_True,
            Bool.not_true, Bool.false_or] at h3
          have h4 : roundF64 q.amount ≤ roundF64 b0.pendingBalance :=
            of_decide_eq_true h3
          rw [hqa]
          exact realSub_nonneg b0.pendingBalance q.amount h4
        · rw [if_neg hk]
          exact hpend b0 hb0
    · rw [if_neg hst]
      exact fun b hb => hpend b hb

/-- C4 (amended): across any sequence of store operations, per-address
total_paid never decreases provided every stored and created payment
amount is non-negative and the stored total_paid values are binary64
values (which every store write maintains, since the Confirmed update
writes them through CAST AS REAL); and pending_balance stays non-negative
only under a guard the code does not enforce: every credited amount is
non-negative and every Confirmed settlement is for at most the (binary64
image of the) pending amount of the affected balance row.  Without the
guard pending can go negative, as the counterexample shows. -/
theorem claim4_balance_invariants (db : Db) (ops : List StoreOp)
    (hrepr : ∀ b ∈ db.balances, roundF64 b.totalPaid = b.totalPaid)
    (hpay : ∀ p ∈ db.payments, 0 ≤ p.amount)
    (hops : ops.all opCreateNonneg = true)
    (hpend : ∀ b ∈ db.balances, 0 ≤ b.pendingBalance)
    (hguard : pendingGuardedRun db ops = true) :
    (∀ c a, balTotalPaid db c a ≤ balTotalPaid (ops.foldl runStoreOp db) c a) ∧
    (∀ b ∈ (ops.foldl runStoreOp db).balances, 0 ≤ b.pendingBalance) := by
  induction ops generalizing db with
  | nil => exact ⟨fun c a => le_refl _, hpend⟩
  | cons op rest ih =>
    rw [List.all_cons, Bool.and_eq_true] at hops
    rw [pendingGuardedRun, Bool.and_eq_true] at hguard
    obtain ⟨hrepr2, hpay2, hle⟩ := runStoreOp_totalPaid_step db op hrepr hpay hops.1
    have hpend2 := runStoreOp_pending_step db op hpend hguard.1
    obtain ⟨ih1, ih2⟩ := ih (runStoreOp db op) hrepr2 hpay2 hops.2 hpend2 hguard.2
    exact ⟨fun c a => le_trans (hle c a) (ih1 c a), ih2⟩

unseal Rat.add Rat.sub in
/-- Concrete instance of the C4 theorem: credit 100, create and confirm a
payment of 30; total_paid is non-decreasing and pending stays
non-negative. -/
theorem claim4_witness :
    ((∀ b ∈ Db.empty.balances, roundF64 b.totalPaid = b.totalPaid) ∧
      (∀ p ∈ Db.empty.payments, 0 ≤ p.amount) ∧
      ([StoreOp.addPendingOp Coin.xmr "A" 100,
        StoreOp.createPaymentOp 0 "p1" Coin.xmr "A" 30,
        StoreOp.updateStatusOp 1 "p1" PaymentStatus.confirmed none none].all
          opCreateNonneg = true) ∧
      (∀ b ∈ Db.empty.balances, 0 ≤ b.pendingBalance) ∧
      (pendingGuardedRun Db.empty
        [StoreOp.addPendingOp Coin.xmr "A" 100,
         StoreOp.createPaymentOp 0 "p1" Coin.xmr "A" 30,
         StoreOp.updateStatusOp 1 "p1" PaymentStatus.confirmed none none]
        = true)) ∧
    ((∀ c a, balTotalPaid Db.empty c a
        ≤ balTotalPaid ([StoreOp.addPendingOp Coin.xmr "A" 100,
            StoreOp.createPaymentOp 0 "p1" Coin.xmr "A" 30,
            StoreOp.updateStatusOp 1 "p1" PaymentStatus.confirmed none
              none].foldl runStoreOp Db.empty) c a) ∧
      (∀ b ∈ ([StoreOp.addPendingOp Coin.xmr "A" 100,
          StoreOp.createPaymentOp 0 "p1" Coin.xmr "A" 30,
          StoreOp.updateStatusOp 1 "p1" PaymentStatus.confirmed none
            none].foldl runStoreOp Db.empty).balances,
        0 ≤ b.pendingBalance)) :=
  ⟨⟨by decide, by decide, by decide, by decide, by decide⟩,
    claim4_balance_invariants Db.empty
      [StoreOp.addPendingOp Coin.xmr "A" 100,
       StoreOp.createPaymentOp 0 "p1" Coin.xmr "A" 30,
       StoreOp.updateStatusOp 1 "p1" PaymentStatus.confirmed none none]
      (by decide) (by decide) (by decide) (by decide) (by decide)⟩

/-! ### Claim C6: degraded payout -/

/-- Spec-modelled greedy payee selection (translated from the spec's
wording, for comparison with the code): walk the payees in the given
(descending) order and select each payee whose full pending amount fits
within the remaining spendable balance, decrementing it on selection;
skip any payee whose amount exceeds the remaining balance. -/
def specGreedySelect : List BalanceRow → Dec → List (String × Dec)
  | [], _ => []
  | b :: rest, remaining =>
    if decLe (ratToDec b.pendingBalance) remaining then
      (b.walletAddress, ratToDec b.pendingBalance)
        :: specGreedySelect rest (decSub remaining (ratToDec b.pendingBalance))
    else specGreedySelect rest remaining

/-- Spec-modelled degraded payout: the payees selected after sorting by
pending amount descending. -/
def specDegradedPayees (db : Db) (coin : Coin) (minPayout : ℚ)
    (walletBalance : Dec) : List (String × Dec) :=
  specGreedySelect
    (sortBy (fun a b =>
        decLt (ratToDec b.pendingBalance) (ratToDec a.pendingBalance))
      (db.getPayableBalances coin minPayout))
    walletBalance

/-- The Processing payment rows recorded for a list of selected payees,
with ids drawn from the uuid stream starting at `k`. -/
def paymentRowsOf (now : ℤ) (coin : Coin) (tx : String → String)
    (uuids : ℕ → String) : ℕ → List (String × Dec) → List PaymentRow
  | _, [] => []
  | k, (addr, amt) :: rest =>
    ⟨uuids k, coin, addr, amt.toRat, some (tx addr),
        PaymentStatus.processing, now, none, none⟩
      :: paymentRowsOf now coin tx uuids (k + 1) rest

theorem map_self {α : Type} (f : α → α) :
    ∀ (l : List α), (∀ p ∈ l, f p = p) → l.map f = l
  | [], _ => rfl
  | x :: xs, h => by
    rw [List.map_cons, h x (List.mem_cons_self x xs),
      map_self f xs (fun p hp => h p (List.mem_cons_of_mem x hp))]

theorem sendPaymentStep_ok_spec (d : Db) (now : ℤ) (coin : Coin)
    (uuid addr txh : String) (amt : Dec)
    (hfresh : ∀ p ∈ d.payments, p.id ≠ uuid) :
    (sendPaymentStep d now coin uuid addr amt (SendOutcome.ok txh)).payments
      = d.payments ++ [⟨uuid, coin, addr, amt.toRat, some txh,
          PaymentStatus.processing, now, none, none⟩] ∧
    (sendPaymentStep d now coin uuid addr amt (SendOutcome.ok txh)).balances
      = d.balances := by
  simp only [sendPaymentStep, Db.createPayment, Db.updatePaymentStatus]
  rw [if_neg (show ¬(PaymentStatus.processing = PaymentStatus.confirmed) by decide)]
  refine ⟨?_, rfl⟩
  dsimp only
  rw [List.map_append]
  congr 1
  · exact map_self _ d.payments (fun p hp => if_neg (hfresh p hp))
  · simp

theorem degradedFold_spec (now : ℤ) (coin : Coin) (tx : String → String)
    (uuids : ℕ → String) (hinj : ∀ i j, uuids i = uuids j → i = j) :
    ∀ (l : List BalanceRow) (d : Db) (remaining : Dec) (k : ℕ),
    (∀ i, k ≤ i → ∀ p ∈ d.payments, p.id ≠ uuids i) →
    ((l.foldl (fun st b =>
        if decLe (ratToDec b.pendingBalance) st.2.1 then
          (sendPaymentStep st.1 now coin (uuids st.2.2) b.walletAddress
            (ratToDec b.pendingBalance)
            (SendOutcome.ok (tx b.walletAddress)),
            (decSub st.2.1 (ratToDec b.pendingBalance), st.2.2 + 1))
        else st)
      (d, (remaining, k))).1.payments
        = d.payments ++ paymentRowsOf now coin tx uuids k
            (specGreedySelect l remaining)) ∧
    ((l.foldl (fun st b =>
        if decLe (ratToDec b.pendingBalance) st.2.1 then
          (sendPaymentStep st.1 now coin (uuids st.2.2) b.walletAddress
            (ratToDec b.pendingBalance)
            (SendOutcome.ok (tx b.walletAddress)),
            (decSub st.2.1 (ratToDec b.pendingBalance), st.2.2 + 1))
        else st)
      (d, (remaining, k))).1.balances = d.balances) := by
  intro l
  induction l with
  | nil =>
    intro d remaining k hfresh
    exact ⟨(List.append_nil _).symm, rfl⟩
  | cons b rest ih =>
    intro d remaining k hfresh
    rw [List.foldl_cons]
    dsimp only
    by_cases hfit : decLe (ratToDec b.pendingBalance) remaining = true
    · rw [if_pos hfit, specGreedySelect, if_pos hfit]
      obtain ⟨hsp, hsb⟩ := sendPaymentStep_ok_spec d now coin (uuids k)
        b.walletAddress (tx b.walletAddress) (ratToDec b.pendingBalance)
        (fun p hp => hfresh k le_rfl p hp)
      have hfresh2 : ∀ i, k + 1 ≤ i →
          ∀ p ∈ (sendPaymentStep d now coin (uuids k) b.walletAddress
            (ratToDec b.pendingBalance)
            (SendOutcome.ok (tx b.walletAddress))).payments,
          p.id ≠ uuids i := by
        intro i hi p hpm
        rw [hsp] at hpm
        rcases List.mem_append.1 hpm with h1 | h2
        · exact hfresh i (le_trans (Nat.le_succ k) hi) p h1
        · obtain rfl := List.mem_singleton.1 h2
          intro hcontra
          have := hinj k i hcontra
          omega
      obtain ⟨ih1, ih2⟩ := ih (sendPaymentStep d now coin (uuids k)
          b.walletAddress (ratToDec b.pendingBalance)
          (SendOutcome.ok (tx b.walletAddress)))
        (decSub remaining (ratToDec b.pendingBalance)) (k + 1) hfresh2
      constructor
      · rw [ih1, hsp, paymentRowsOf]
        simp [List.append_assoc]
      · rw [ih2, hsb]
    · rw [if_neg hfit, specGreedySelect, if_neg hfit]
      exact ih d remaining k hfresh

/-- C6: when the wallet balance is below the total payable, process_payments
follows exactly the spec-modelled degraded strategy: it sorts the payable
balances by pending amount descending, and (with every wallet send
succeeding) records exactly one Processing payment, with the payee's full
pending amount, for each payee selected by the greedy walk that pays a
payee iff its full amount fits the remaining spendable balance; skipped
payees get no payment row and no balance row is touched, so their amounts
remain pending. -/
theorem claim6_degraded_payout (db : Db) (now : ℤ) (coin : Coin)
    (minPayout : ℚ) (walletBalance : Dec)
    (batch : Option (List (String × String)))
    (tx : String → String) (uuids : ℕ → String)
    (hinj : ∀ i j, uuids i = uuids j → i = j)
    (hfresh : ∀ i, ∀ p ∈ db.payments, p.id ≠ uuids i)
    (hne : (db.getPayableBalances coin minPayout).isEmpty = false)
    (hlt : decLt walletBalance
        ((db.getPayableBalances coin minPayout).foldl
          (fun acc b => decAdd acc (ratToDec b.pendingBalance)) decZero)
        = true) :
    (processPayments db now coin minPayout walletBalance batch
        (fun a => SendOutcome.ok (tx a)) uuids).payments
      = db.payments ++ paymentRowsOf now coin tx uuids 0
          (specDegradedPayees db coin minPayout walletBalance) ∧
    (processPayments db now coin minPayout walletBalance batch
        (fun a => SendOutcome.ok (tx a)) uuids).balances = db.balances := by
  have hmain := degradedFold_spec now coin tx uuids hinj
    (sortBy (fun a b =>
        decLt (ratToDec b.pendingBalance) (ratToDec a.pendingBalance))
      (db.getPayableBalances coin minPayout))
    db walletBalance 0 (fun i _ p hp => hfresh i p hp)
  simp only [processPayments]
  rw [if_neg (by simp [hne]), if_pos hlt]
  exact hmain

unseal Rat.add Rat.sub in
/-- Concrete instance of the C6 theorem: payable pending balances
[70, 50, 40] and spendable balance 100; the greedy selection picks
exactly the 70 payee, one Processing payment of 70 is recorded, and the
50 and 40 balances are untouched. -/
theorem claim6_witness :
    ((∀ i j : ℕ, (fun n => String.mk (List.replicate n 'a')) i
        = (fun n => String.mk (List.replicate n 'a')) j → i = j) ∧
      (∀ i : ℕ, ∀ p ∈ (⟨[], [⟨"X", Coin.xmr, 70, 0, 0, none, none⟩,
          ⟨"Y", Coin.xmr, 50, 0, 0, none, none⟩,
          ⟨"Z", Coin.xmr, 40, 0, 0, none, none⟩], [], [], 1, 4, 1, 1, 0⟩ :
            Db).payments,
        p.id ≠ (fun n => String.mk (List.replicate n 'a')) i) ∧
      ((⟨[], [⟨"X", Coin.xmr, 70, 0, 0, none, none⟩,
          ⟨"Y", Coin.xmr, 50, 0, 0, none, none⟩,
          ⟨"Z", Coin.xmr, 40, 0, 0, none, none⟩], [], [], 1, 4, 1, 1, 0⟩ :
            Db).getPayableBalances Coin.xmr 1).isEmpty = false ∧
      decLt ⟨100, 0⟩
        (((⟨[], [⟨"X", Coin.xmr, 70, 0, 0, none, none⟩,
            ⟨"Y", Coin.xmr, 50, 0, 0, none, none⟩,
            ⟨"Z", Coin.xmr, 40, 0, 0, none, none⟩], [], [], 1, 4, 1, 1, 0⟩ :
              Db).getPayableBalances Coin.xmr 1).foldl
          (fun acc b => decAdd acc (ratToDec b.pendingBalance)) decZero)
        = true) ∧
    specDegradedPayees
      (⟨[], [⟨"X", Coin.xmr, 70, 0, 0, none, none⟩,
        ⟨"Y", Coin.xmr, 50, 0, 0, none, none⟩,
        ⟨"Z", Coin.xmr, 40, 0, 0, none, none⟩], [], [], 1, 4, 1, 1, 0⟩ : Db)
      Coin.xmr 1 ⟨100, 0⟩ = [("X", ⟨70, 0⟩)] ∧
    (processPayments
        (⟨[], [⟨"X", Coin.xmr, 70, 0, 0, none, none⟩,
          ⟨"Y", Coin.xmr, 50, 0, 0, none, none⟩,
          ⟨"Z", Coin.xmr, 40, 0, 0, none, none⟩], [], [], 1, 4, 1, 1, 0⟩ : Db)
        0 Coin.xmr 1 ⟨100, 0⟩ none (fun a => SendOutcome.ok a)
        (fun n => String.mk (List.replicate n 'a'))).payments
      = (⟨[], [⟨"X", Coin.xmr, 70, 0, 0, none, none⟩,
          ⟨"Y", Coin.xmr, 50, 0, 0, none, none⟩,
          ⟨"Z", Coin.xmr, 40, 0, 0, none, none⟩], [], [], 1, 4, 1, 1, 0⟩ :
            Db).payments
        ++ paymentRowsOf 0 Coin.xmr (fun a => a)
            (fun n => String.mk (List.replicate n 'a')) 0
            (specDegradedPayees
              (⟨[], [⟨"X", Coin.xmr, 70, 0, 0, none, none⟩,
                ⟨"Y", Coin.xmr, 50, 0, 0, none, none⟩,
                ⟨"Z", Coin.xmr, 40, 0, 0, none, none⟩], [], [], 1, 4, 1, 1,
                  0⟩ : Db)
              Coin.xmr 1 ⟨100, 0⟩) := by
  have hinj : ∀ i j : ℕ, (fun n => String.mk (List.replicate n 'a')) i
      = (fun n => String.mk (List.replicate n 'a')) j → i = j := by
    intro i j h
    have h2 : List.replicate i 'a' = List.replicate j 'a' :=
      congrArg String.data h
    have h3 := congrArg List.length h2
    simpa using h3
  refine ⟨⟨hinj, by simp, by decide, by decide⟩, by decide, ?_⟩
  exact (claim6_degraded_payout
    (⟨[], [⟨"X", Coin.xmr, 70, 0, 0, none, none⟩,
      ⟨"Y", Coin.xmr, 50, 0, 0, none, none⟩,
      ⟨"Z", Coin.xmr, 40, 0, 0, none, none⟩], [], [], 1, 4, 1, 1, 0⟩ : Db)
    0 Coin.xmr 1 ⟨100, 0⟩ none (fun a => a)
    (fun n => String.mk (List.replicate n 'a'))
    hinj (by simp) (by decide) (by decide)).1

/-! ### Claim C8: payment status lifecycle -/

theorem filter_map_pred {α : Type} (f : α → α) (pred : α → Bool)
    (hp : ∀ a, pred (f a) = pred a) :
    ∀ l : List α, (l.map f).filter pred = (l.filter pred).map f := by
  intro l
  induction l with
  | nil => rfl
  | cons x xs ih =>
    rw [List.map_cons, List.filter_cons, List.filter_cons, hp x]
    cases hx : pred x <;> simp [ih]

theorem updatePaymentStatus_payments (d : Db) (now : ℤ) (tid : String)
    (st : PaymentStatus) (tx err : Option String) :
    (d.updatePaymentStatus now tid st tx err).payments
      = d.payments.map (fun p => if p.id = tid then
          { p with
              status := st
              txHash := tx.or p.txHash
              confirmedAt := if st = PaymentStatus.confirmed then some now else none
              errorMessage := err }
          else p) := by
  simp only [Db.updatePaymentStatus]
  split
  · split <;> rfl
  · rfl

theorem updatePaymentStatus_filter (d : Db) (now : ℤ) (tid : String)
    (st : PaymentStatus) (tx err : Option String) (pid : String)
    (hne : tid ≠ pid) :
    (d.updatePaymentStatus now tid st tx err).payments.filter
        (fun r => decide (r.id = pid))
      = d.payments.filter (fun r => decide (r.id = pid)) := by
  rw [updatePaymentStatus_payments,
    filter_map_pred _ _ (fun p => by by_cases h : p.id = tid
                                     · rw [if_pos h]
                                     · rw [if_neg h])]
  apply map_self
  intro r hr
  have h0 := List.of_mem_filter hr
  have hrid : r.id = pid := of_decide_eq_true h0
  exact if_neg (fun hc => hne (by rw [← hc]; exact hrid))

theorem createPayment_filter (d : Db) (now : ℤ) (id : String) (coin : Coin)
    (addr : String) (amt : ℚ) (pid : String) (hne : id ≠ pid) :
    (d.createPayment now id coin addr amt).1.payments.filter
        (fun r => decide (r.id = pid))
      = d.payments.filter (fun r => decide (r.id = pid)) := by
  simp only [Db.createPayment]
  rw [List.filter_append]
  have hnew : ([(⟨id, coin, addr, amt, none, PaymentStatus.pending, now, none,
      none⟩ : PaymentRow)].filter (fun r => decide (r.id = pid))) = [] := by
    simp [hne]
  rw [hnew, List.append_nil]

theorem sendPaymentStep_filter (d : Db) (now : ℤ) (coin : Coin)
    (uuid addr : String) (amt : Dec) (outcome : SendOutcome) (pid : String)
    (hne : uuid ≠ pid) :
    (sendPaymentStep d now coin uuid addr amt outcome).payments.filter
        (fun r => decide (r.id = pid))
      = d.payments.filter (fun r => decide (r.id = pid)) := by
  cases outcome with
  | ok tx =>
    simp only [sendPaymentStep]
    rw [updatePaymentStatus_filter _ _ _ _ _ _ _ hne,
      createPayment_filter _ _ _ _ _ _ _ hne]
  | err msg =>
    simp only [sendPaymentStep]
    rw [updatePaymentStatus_filter _ _ _ _ _ _ _ hne,
      createPayment_filter _ _ _ _ _ _ _ hne]

theorem recordShare_payments (db : Db) (now : ℤ) (coin : Coin)
    (a w : String) (diff : ℚ) (h : Option ℤ) (ib : Bool) :
    (db.recordShare now coin a w diff h ib).1.payments = db.payments := by
  rw [Db.recordShare]
  split_ifs <;> rfl

theorem recordShareFold_payments (coin : Coin) :
    ∀ (l : List ShareInfo) (db : Db) (clock : ℕ → ℤ),
    (recordShareFold coin db clock l).payments = db.payments := by
  intro l
  induction l with
  | nil => intro db clock; rfl
  | cons sh rest ih =>
    intro db clock
    rw [recordShareFold, ih, recordShare_payments]

theorem recordBlock_payments (db : Db) (now : ℤ) (coin : Coin) (height : ℤ)
    (hash : String) (reward : ℚ) (fw fwk : String) :
    (db.recordBlock now coin height hash reward fw fwk).1.payments
      = db.payments := by
  rw [Db.recordBlock]
  split_ifs <;> rfl

theorem addPendingBalance_payments (db : Db) (coin : Coin) (a : String)
    (amt : ℚ) : (db.addPendingBalance coin a amt).payments = db.payments := by
  rw [Db.addPendingBalance]
  split_ifs <;> rfl

theorem addPendingFold_payments (coin : Coin) :
    ∀ (l : List (String × Dec)) (d : Db),
    (l.foldl (fun d c => d.addPendingBalance coin c.1 c.2.toRat) d).payments
      = d.payments := by
  intro l
  induction l with
  | nil => intro d; rfl
  | cons c rest ih =>
    intro d
    rw [List.foldl_cons, ih, addPendingBalance_payments]

theorem distributeRewards_payments (db : Db) (blk : BlockRow) (reward : Dec) :
    (distributeRewardsForBlock db blk reward).payments = db.payments := by
  simp only [distributeRewardsForBlock, Db.markBlockDistributed]
  exact addPendingFold_payments blk.coin _ db

theorem statusRank_le_two (st : PaymentStatus) : statusRank st ≤ 2 := by
  cases st <;> decide

theorem degradedFold_filter (now : ℤ) (coin : Coin)
    (sends : String → SendOutcome) (uuids : ℕ → String) (pid : String)
    (havoid : ∀ i, uuids i ≠ pid) :
    ∀ (l : List BalanceRow) (d : Db) (rem : Dec) (k : ℕ),
    ((l.foldl (fun st b =>
        if decLe (ratToDec b.pendingBalance) st.2.1 then
          match sends b.walletAddress with
          | SendOutcome.ok tx =>
            (sendPaymentStep st.1 now coin (uuids st.2.2) b.walletAddress
              (ratToDec b.pendingBalance) (SendOutcome.ok tx),
              (decSub st.2.1 (ratToDec b.pendingBalance), st.2.2 + 1))
          | SendOutcome.err msg =>
            (sendPaymentStep st.1 now coin (uuids st.2.2) b.walletAddress
              (ratToDec b.pendingBalance) (SendOutcome.err msg),
              (st.2.1, st.2.2 + 1))
        else st)
      (d, (rem, k))).1).payments.filter (fun r => decide (r.id = pid))
      = d.payments.filter (fun r => decide (r.id = pid)) := by
  intro l
  induction l with
  | nil => intro d rem k; rfl
  | cons b rest ih =>
    intro d rem k
    rw [List.foldl_cons]
    dsimp only
    by_cases hfit : decLe (ratToDec b.pendingBalance) rem = true
    · rw [if_pos hfit]
      split
      · rw [ih, sendPaymentStep_filter _ _ _ _ _ _ _ _ (havoid k)]
      · rw [ih, sendPaymentStep_filter _ _ _ _ _ _ _ _ (havoid k)]
    · rw [if_neg hfit]
      exact ih d rem k

theorem batchFold_filter (now : ℤ) (coin : Coin) (payable : List BalanceRow)
    (uuids : ℕ → String) (pid : String) (havoid : ∀ i, uuids i ≠ pid) :
    ∀ (results : List (String × String)) (d : Db) (k : ℕ),
    ((results.foldl (fun st r =>
        ((st.1.createPayment now (uuids st.2) coin r.1
            (((payable.find? (fun b => decide (b.walletAddress = r.1))).map
              (fun b => ratToDec b.pendingBalance)).getD decZero).toRat).1.updatePaymentStatus
          now (uuids st.2) PaymentStatus.processing (some r.2) none,
          st.2 + 1))
      (d, k)).1).payments.filter (fun r => decide (r.id = pid))
      = d.payments.filter (fun r => decide (r.id = pid)) := by
  intro results
  induction results with
  | nil => intro d k; rfl
  | cons r rest ih =>
    intro d k
    rw [List.foldl_cons]
    dsimp only
    rw [ih, updatePaymentStatus_filter _ _ _ _ _ _ _ (havoid k),
      createPayment_filter _ _ _ _ _ _ _ (havoid k)]

theorem fallbackFold_filter (now : ℤ) (coin : Coin)
    (sends : String → SendOutcome) (uuids : ℕ → String) (pid : String)
    (havoid : ∀ i, uuids i ≠ pid) :
    ∀ (l : List BalanceRow) (d : Db) (k : ℕ),
    ((l.foldl (fun st b =>
        (sendPaymentStep st.1 now coin (uuids st.2) b.walletAddress
          (ratToDec b.pendingBalance) (sends b.walletAddress), st.2 + 1))
      (d, k)).1).payments.filter (fun r => decide (r.id = pid))
      = d.payments.filter (fun r => decide (r.id = pid)) := by
  intro l
  induction l with
  | nil => intro d k; rfl
  | cons b rest ih =>
    intro d k
    rw [List.foldl_cons]
    dsimp only
    rw [ih, sendPaymentStep_filter _ _ _ _ _ _ _ _ (havoid k)]

theorem processPayments_filter (db : Db) (now : ℤ) (coin : Coin)
    (minPayout : ℚ) (walletBalance : Dec)
    (batch : Option (List (String × String)))
    (sends : String → SendOutcome) (uuids : ℕ → String) (pid : String)
    (havoid : ∀ i, uuids i ≠ pid) :
    (processPayments db now coin minPayout walletBalance batch sends
        uuids).payments.filter (fun r => decide (r.id = pid))
      = db.payments.filter (fun r => decide (r.id = pid)) := by
  simp only [processPayments]
  split
  · rfl
  · split
    · exact degradedFold_filter now coin sends uuids pid havoid _ db
        walletBalance 0
    · split
      · exact batchFold_filter now coin _ uuids pid havoid _ db 0
      · exact fallbackFold_filter now coin sends uuids pid havoid _ db 0

theorem confirmFold_spec (now : ℤ) (txStatus : String → Option TxStatus)
    (pid : String) :
    ∀ (l : List PaymentRow) (d : Db) (q : PaymentRow),
    d.payments.filter (fun r => decide (r.id = pid)) = [q] →
    (terminalStatus q.status → ∀ s ∈ l, s.id ≠ pid) →
    ((l.filter (fun s => decide (s.id = pid))).length ≤ 1) →
    ∃ q2, ((l.foldl (fun d p =>
        match p.txHash with
        | none => d
        | some tx =>
          match txStatus tx with
          | some TxStatus.confirmed =>
            d.updatePaymentStatus now p.id PaymentStatus.confirmed none none
          | some (TxStatus.failed reason) =>
            d.updatePaymentStatus now p.id PaymentStatus.failed none
              (some reason)
          | _ => d) d).payments.filter (fun r => decide (r.id = pid)) = [q2]) ∧
      q2.coin = q.coin ∧ q2.walletAddress = q.walletAddress ∧
      q2.amount = q.amount ∧ q2.createdAt = q.createdAt ∧
      statusRank q.status ≤ statusRank q2.status ∧
      (terminalStatus q.status → q2.status = q.status) := by
  intro l
  induction l with
  | nil =>
    intro d q hrow hsnap hcount
    exact ⟨q, hrow, rfl, rfl, rfl, rfl, le_refl _, fun _ => rfl⟩
  | cons s rest ih =>
    intro d q hrow hsnap hcount
    have hqid : q.id = pid := by
      have hqmem : q ∈ d.payments.filter (fun r => decide (r.id = pid)) := by
        rw [hrow]
        exact List.mem_singleton_self q
      have h0 := List.of_mem_filter hqmem
      exact of_decide_eq_true h0
    have hsnap1 : ∀ st2 : PaymentStatus,
        statusRank st2 = 2 → terminalStatus st2 := by
      intro st2 h2
      cases st2 <;> simp [statusRank] at h2 <;>
        first
          | exact Or.inl rfl
          | exact Or.inr rfl
    rw [List.foldl_cons]
    by_cases hsid : s.id = pid
    · -- this snapshot row is ours: the rest of the snapshot avoids pid
      have hnil : rest.filter (fun r => decide (r.id = pid)) = [] := by
        have hc2 := hcount
        rw [List.filter_cons,
          if_pos (show decide (s.id = pid) = true from decide_eq_true hsid),
          List.length_cons] at hc2
        have h0 : (rest.filter (fun r => decide (r.id = pid))).length = 0 := by
          omega
        exact List.length_eq_zero.1 h0
      have hrest : ∀ s2 ∈ rest, s2.id ≠ pid := by
        intro s2 hs2 hs2id
        have hmem : s2 ∈ rest.filter (fun r => decide (r.id = pid)) :=
          List.mem_filter.2 ⟨hs2, decide_eq_true hs2id⟩
        rw [hnil] at hmem
        exact absurd hmem (List.not_mem_nil s2)
      have hcount2 : ((rest.filter (fun r => decide (r.id = pid))).length ≤ 1) := by
        rw [hnil]
        simp
      have hterm : ¬ terminalStatus q.status :=
        fun ht => hsnap ht s (List.mem_cons_self s rest) hsid
      split
      · exact ih d q hrow (fun ht => absurd ht hterm) hcount2
      · split
        · -- confirmed update on our row
          rename_i tx htx st2 hst2
          refine ?_
          have hfd : (d.updatePaymentStatus now s.id PaymentStatus.confirmed
              none none).payments.filter (fun r => decide (r.id = pid))
              = [{ q with
                  status := PaymentStatus.confirmed
                  txHash := Option.or none q.txHash
                  confirmedAt := some now
                  errorMessage := none }] := by
            rw [updatePaymentStatus_payments,
              filter_map_pred _ _ (fun p => by by_cases h : p.id = s.id
                                               · rw [if_pos h]
                                               · rw [if_neg h]),
              hrow, List.map_cons, List.map_nil,
              if_pos (hqid.trans hsid.symm)]
            simp
          obtain ⟨q2, h2, hc2, hw2, ha2, hcr2, _, hfz2⟩ := ih
            (d.updatePaymentStatus now s.id PaymentStatus.confirmed none none)
            ({ q with
                status := PaymentStatus.confirmed
                txHash := Option.or none q.txHash
                confirmedAt := some now
                errorMessage := none })
            hfd (fun _ => hrest) (by rw [hnil]; simp)
          refine ⟨q2, h2, hc2, hw2, ha2, hcr2, ?_, fun ht => absurd ht hterm⟩
          have hq2 : q2.status = PaymentStatus.confirmed :=
            hfz2 (Or.inl rfl)
          rw [hq2]
          exact le_trans (statusRank_le_two q.status) (le_refl 2)
        · -- failed update on our row
          rename_i tx htx reason hst2
          have hfd : (d.updatePaymentStatus now s.id PaymentStatus.failed
              none (some reason)).payments.filter (fun r => decide (r.id = pid))
              = [{ q with
                  status := PaymentStatus.failed
                  txHash := Option.or none q.txHash
                  confirmedAt := none
                  errorMessage := some reason }] := by
            rw [updatePaymentStatus_payments,
              filter_map_pred _ _ (fun p => by by_cases h : p.id = s.id
                                               · rw [if_pos h]
                                               · rw [if_neg h]),
              hrow, List.map_cons, List.map_nil,
              if_pos (hqid.trans hsid.symm)]
            simp
          obtain ⟨q2, h2, hc2, hw2, ha2, hcr2, _, hfz2⟩ := ih
            (d.updatePaymentStatus now s.id PaymentStatus.failed none
              (some reason))
            ({ q with
                status := PaymentStatus.failed
                txHash := Option.or none q.txHash
                confirmedAt := none
                errorMessage := some reason })
            hfd (fun _ => hrest) (by rw [hnil]; simp)
          refine ⟨q2, h2, hc2, hw2, ha2, hcr2, ?_, fun ht => absurd ht hterm⟩
          have hq2 : q2.status = PaymentStatus.failed :=
            hfz2 (Or.inr rfl)
          rw [hq2]
          exact le_trans (statusRank_le_two q.status) (le_refl 2)
        · exact ih d q hrow (fun ht => absurd ht hterm) hcount2
    · -- snapshot row with a different id: our row is untouched
      have hsnap2 : terminalStatus q.status → ∀ s2 ∈ rest, s2.id ≠ pid :=
        fun ht s2 hs2 => hsnap ht s2 (List.mem_cons_of_mem s hs2)
      have hcount2 : ((rest.filter (fun r => decide (r.id = pid))).length ≤ 1) := by
        rw [List.filter_cons,
          if_neg (show ¬(decide (s.id = pid) = true) by simp [hsid])] at hcount
        exact hcount
      split
      · exact ih d q hrow hsnap2 hcount2
      · split
        · exact ih _ q (by
            rw [updatePaymentStatus_filter _ _ _ _ _ _ _ hsid]
            exact hrow) hsnap2 hcount2
        · exact ih _ q (by
            rw [updatePaymentStatus_filter _ _ _ _ _ _ _ hsid]
            exact hrow) hsnap2 hcount2
        · exact ih d q hrow hsnap2 hcount2

/-- An engine operation avoids a payment id when any payment rows it
creates use ids different from it (the uuid stream of a payout never
collides with it); all other operations are unconstrained. -/
def opAvoids (pid : String) : EngineOp → Prop
  | EngineOp.payoutOp _ _ _ _ _ _ uuids => ∀ i, uuids i ≠ pid
  | _ => True

theorem runEngineOp_payment_step (db : Db) (op : EngineOp) (pid : String)
    (q : PaymentRow)
    (hrow : db.payments.filter (fun r => decide (r.id = pid)) = [q])
    (havoid : opAvoids pid op) :
    ∃ q2, (runEngineOp db op).payments.filter (fun r => decide (r.id = pid))
        = [q2] ∧
      q2.coin = q.coin ∧ q2.walletAddress = q.walletAddress ∧
      q2.amount = q.amount ∧ q2.createdAt = q.createdAt ∧
      statusRank q.status ≤ statusRank q2.status ∧
      (terminalStatus q.status → q2.status = q.status) := by
  cases op with
  | syncOp coin shares clock =>
    refine ⟨q, ?_, rfl, rfl, rfl, rfl, le_refl _, fun _ => rfl⟩
    rw [show (runEngineOp db (EngineOp.syncOp coin shares clock)).payments
        = db.payments from recordShareFold_payments coin shares db clock]
    exact hrow
  | recordBlockOp now coin height hash reward fw fwk =>
    refine ⟨q, ?_, rfl, rfl, rfl, rfl, le_refl _, fun _ => rfl⟩
    rw [show (runEngineOp db (EngineOp.recordBlockOp now coin height hash
          reward fw fwk)).payments = db.payments from
        recordBlock_payments db now coin height hash reward fw fwk]
    exact hrow
  | distributeOp blk reward =>
    refine ⟨q, ?_, rfl, rfl, rfl, rfl, le_refl _, fun _ => rfl⟩
    rw [show (runEngineOp db (EngineOp.distributeOp blk reward)).payments
        = db.payments from distributeRewards_payments db blk reward]
    exact hrow
  | payoutOp now coin minPayout walletBalance batch sends uuids =>
    refine ⟨q, ?_, rfl, rfl, rfl, rfl, le_refl _, fun _ => rfl⟩
    rw [show (runEngineOp db (EngineOp.payoutOp now coin minPayout
          walletBalance batch sends uuids)).payments.filter
          (fun r => decide (r.id = pid))
        = db.payments.filter (fun r => decide (r.id = pid)) from
      processPayments_filter db now coin minPayout walletBalance batch sends
        uuids pid havoid]
    exact hrow
  | confirmOp now coin txStatus =>
    have hsnap : terminalStatus q.status →
        ∀ s ∈ db.getPendingPayments coin, s.id ≠ pid := by
      intro ht s hs hsid
      have hs1 := List.mem_filter.1 hs
      have hsmem : s ∈ db.payments.filter (fun r => decide (r.id = pid)) :=
        List.mem_filter.2 ⟨hs1.1, decide_eq_true hsid⟩
      rw [hrow] at hsmem
      have hsp : s = q := List.mem_singleton.1 hsmem
      subst hsp
      have hpred := of_decide_eq_true hs1.2
      rcases ht with ht1 | ht1 <;> rcases hpred.2 with h2 | h2 <;>
        (rw [ht1] at h2; exact PaymentStatus.noConfusion h2)
    have hcount : (((db.getPendingPayments coin).filter
        (fun r => decide (r.id = pid))).length ≤ 1) := by
      have hcomm : ((db.getPendingPayments coin).filter
            (fun r => decide (r.id = pid))).length
          = ((db.payments.filter (fun r => decide (r.id = pid))).filter
              (fun p => decide (p.coin = coin ∧
                (p.status = PaymentStatus.pending ∨
                  p.status = PaymentStatus.processing)))).length := by
        rw [Db.getPendingPayments, List.filter_comm]
      rw [hcomm, hrow]
      exact List.length_filter_le _ _
    exact confirmFold_spec now txStatus pid (db.getPendingPayments coin) db q
      hrow hsnap hcount

/-- C8: payment status is monotone along the lifecycle and terminal
states are frozen.  For any store whose payments table holds exactly one
row with a given id, and any sequence of engine operations whose payout
uuid streams avoid that id, the row survives with its identity fields
(coin, address, amount, creation time) intact, its status rank
(Pending 0, Processing 1, Confirmed and Failed 2) never decreases, and
once the status is Confirmed or Failed no operation changes it again —
a failed payment is only ever re-attempted as a brand-new payment row. -/
theorem claim8_status_monotone (db : Db) (ops : List EngineOp) (pid : String)
    (p : PaymentRow)
    (hrow : db.payments.filter (fun r => decide (r.id = pid)) = [p])
    (havoid : ∀ op ∈ ops, opAvoids pid op) :
    ∃ q, (ops.foldl runEngineOp db).payments.filter
        (fun r => decide (r.id = pid)) = [q] ∧
      q.coin = p.coin ∧ q.walletAddress = p.walletAddress ∧
      q.amount = p.amount ∧ q.createdAt = p.createdAt ∧
      statusRank p.status ≤ statusRank q.status ∧
      (terminalStatus p.status → q.status = p.status) := by
  induction ops generalizing db p with
  | nil => exact ⟨p, hrow, rfl, rfl, rfl, rfl, le_refl _, fun _ => rfl⟩
  | cons op rest ih =>
    obtain ⟨q1, h1, hc, hw, ha, hcr, hrk, hfz⟩ :=
      runEngineOp_payment_step db op pid p hrow
        (havoid op (List.mem_cons_self op rest))
    obtain ⟨q2, h2, hc2, hw2, ha2, hcr2, hrk2, hfz2⟩ :=
      ih (runEngineOp db op) q1 h1
        (fun o ho => havoid o (List.mem_cons_of_mem op ho))
    refine ⟨q2, h2, hc2.trans hc, hw2.trans hw, ha2.trans ha,
      hcr2.trans hcr, le_trans hrk hrk2, ?_⟩
    intro ht
    have hq1 : q1.status = p.status := hfz ht
    have ht1 : terminalStatus q1.status := by
      rw [hq1]
      exact ht
    rw [hfz2 ht1, hq1]

/-- Concrete instance of the C8 theorem: a Processing payment with a
transaction hash is polled while confirmed; its status can only move
forward. -/
theorem claim8_witness :
    ((⟨[], [], [⟨"p1", Coin.xmr, "A", 5, some "t", PaymentStatus.processing,
        0, none, none⟩], [], 1, 1, 1, 2, 0⟩ : Db).payments.filter
      (fun r => decide (r.id = "p1"))
        = [⟨"p1", Coin.xmr, "A", 5, some "t", PaymentStatus.processing,
          0, none, none⟩]) ∧
    (∀ op ∈ ([EngineOp.confirmOp 1 Coin.xmr
        (fun _ => some TxStatus.confirmed)] : List EngineOp),
      opAvoids "p1" op) ∧
    (∃ q, (([EngineOp.confirmOp 1 Coin.xmr
          (fun _ => some TxStatus.confirmed)] : List EngineOp).foldl
          runEngineOp
          (⟨[], [], [⟨"p1", Coin.xmr, "A", 5, some "t",
            PaymentStatus.processing, 0, none, none⟩], [], 1, 1, 1, 2, 0⟩ :
              Db)).payments.filter (fun r => decide (r.id = "p1")) = [q] ∧
      q.coin = Coin.xmr ∧ q.walletAddress = "A" ∧ q.amount = 5 ∧
      q.createdAt = 0 ∧
      statusRank PaymentStatus.processing ≤ statusRank q.status ∧
      (terminalStatus PaymentStatus.processing →
        q.status = PaymentStatus.processing)) := by
  refine ⟨by decide, ?_, ?_⟩
  · intro op ho
    rw [List.mem_singleton] at ho
    subst ho
    trivial
  · exact claim8_status_monotone
      (⟨[], [], [⟨"p1", Coin.xmr, "A", 5, some "t",
        PaymentStatus.processing, 0, none, none⟩], [], 1, 1, 1, 2, 0⟩ : Db)
      [EngineOp.confirmOp 1 Coin.xmr (fun _ => some TxStatus.confirmed)]
      "p1"
      ⟨"p1", Coin.xmr, "A", 5, some "t", PaymentStatus.processing, 0, none,
        none⟩
      (by decide)
      (fun op ho => by
        rw [List.mem_singleton] at ho
        subst ho
        trivial)

end SoloPool
